import Mathlib

set_option maxHeartbeats 1000000
set_option maxRecDepth 4000

/-!
# Shallow embedding of the DQRVCS gossip core

This file embeds the gossip metadata store of the repository
(`gossip/store.go`, `gossip/pending.go`, and the pending-push processing
loop of the CLI) and proves the frozen claims about it.

Modelling conventions:

* Cryptographic primitives (SHA-256, Ed25519, base64) are idealized
  symbolically: a keypair is a natural number `k`; the base64-encoded
  public-key string is `KeyStr.enc k`; an Ed25519 signature over the
  canonical bytes `m` by private key `k`, base64-encoded, is
  `SigStr.enc k m`; the hex SHA-256 id of canonical bytes plus raw
  signature bytes is `IdStr.hash m k m'`.  Constructor injectivity models
  collision-freeness of the hash and unforgeability/determinism of the
  signature; `.raw` constructors stand for every other string (those fail
  base64 decoding or have a wrong decoded length, which the code rejects
  on a single path each).
* JSON payload bytes (`json.RawMessage`) are modelled by their canonical
  (compacted) form: `Payload.json doc` is a valid JSON document with
  canonical bytes `doc`, `Payload.invalid bytes` is a byte string Go's
  `json.Valid` rejects, and `Payload.empty` is the nil / length-zero
  slice.  `encoding/json` compacts a `RawMessage` when marshalling, so
  canonical bytes identify byte strings with equal compacted form.
* Go `strings.TrimSpace` is modelled over the characters the claims
  exercise (ASCII whitespace) by `trimSpace`; Go string ordering is the
  byte-wise order `strLt`.
* `time.Now().UTC().Format(time.RFC3339Nano)` is modelled by a symbolic
  clock `fmtTime : Nat -> String`, injective and producing exactly the
  strings the symbolic `time.Parse(time.RFC3339Nano)` model accepts.
* File persistence (`appendOpLocked`, `writeJSONAtomic`) is dropped: the
  in-memory state is authoritative after open, and the pending-push file
  is modelled as the list of records it holds.
* `seq` is `uint64` in Go and `Nat` here: a successful call can never
  wrap `seq` (the store would need `2^64` accepted operations first), so
  no claim's truth depends on the width.
* `sort.SliceStable` / `sort.Strings` are modelled by `List.mergeSort`,
  which is the unique stable sort for the given comparator.
-/

deriving instance DecidableEq for Except

/-! ## Strings: Go `strings.TrimSpace` and byte-wise ordering -/

/-- Whitespace as trimmed by the model of Go `strings.TrimSpace`
(ASCII space, tab, newline, carriage return). -/
def isSpaceGo (c : Char) : Bool :=
  c = ' ' || c = '\t' || c = '\n' || c = '\r'

/-- Model of Go `strings.TrimSpace`: drop leading and trailing whitespace. -/
def trimSpace (s : String) : String :=
  String.mk (((s.data.dropWhile isSpaceGo).reverse.dropWhile isSpaceGo).reverse)

/-- Byte-wise lexicographic order on character lists, modelling Go's
`<` on strings. -/
def strLtL : List Char → List Char → Bool
  | [], [] => false
  | [], _ :: _ => true
  | _ :: _, [] => false
  | a :: as, b :: bs =>
    if a.toNat < b.toNat then true
    else if b.toNat < a.toNat then false
    else strLtL as bs

/-- Model of Go `a < b` on strings. -/
def strLt (a b : String) : Bool := strLtL a.data b.data

/-! ## Symbolic crypto layer -/

/-- Model of `nodeIDFromPublicKey` (`store.go`): lowercase hex of the
first 16 bytes of SHA-256 of the public key, idealized as an injective
function of the symbolic keypair into non-blank strings. -/
def nodeIDFromPublicKey (k : Nat) : String :=
  String.mk ('n' :: List.replicate k 'n')

/-- Symbolic clock output: the operation timestamp
`time.Now().UTC().Format(time.RFC3339Nano)` at instant `t`. -/
def fmtTime (t : Nat) : String :=
  String.mk ('t' :: List.replicate t 't')

/-- Model of `time.Parse(time.RFC3339Nano, s)` succeeding: the symbolic
set of well-formed timestamp strings (exactly those with the clock's
tag), which contains every `fmtTime t`. -/
def parsesRFC3339Nano (s : String) : Bool :=
  s.data.head? = some 't'

/-- A `json.RawMessage` payload identified by its canonical (compacted)
byte form; see the module comment. -/
inductive Payload where
  | empty : Payload
  | json (doc : String) : Payload
  | invalid (bytes : String) : Payload
deriving DecidableEq, Repr

/-- The canonical empty JSON object `\x7b\x7d` substituted for empty
payloads. -/
def emptyObject : Payload := .json "\x7b\x7d"

/-- The payload normalization both `AppendLocalOp` and
`canonicalOperationBytes` perform: a length-zero payload becomes the
empty JSON object. -/
def normPayload : Payload → Payload
  | .empty => emptyObject
  | p => p

/-- Model of Go `json.Valid` on a (normalized) payload. -/
def Payload.isValidJson : Payload → Bool
  | .invalid _ => false
  | _ => true

/-- A string held in the `public_key` field: either the base64 encoding
of the 32-byte public key of keypair `k`, or any other string (which
fails base64 decoding or the length check). -/
inductive KeyStr where
  | enc (key : Nat) : KeyStr
  | raw (s : String) : KeyStr
deriving DecidableEq, Repr

/-- The signable subset of an operation in canonical field order
(`type, author, seq, timestamp, payload, public_key`); stands for the
`json.Marshal` bytes of the `signable` struct in
`canonicalOperationBytes`, with constructor injectivity modelling the
injectivity of that encoding. -/
structure Signable where
  type : String
  author : String
  seq : Nat
  timestamp : String
  payload : Payload
  publicKey : KeyStr
deriving DecidableEq, Repr

/-- A string held in the `signature` field: either the base64 encoding
of the Ed25519 signature of canonical bytes `msg` under keypair `key`,
or any other string (fails decoding or the length check). -/
inductive SigStr where
  | enc (key : Nat) (msg : Signable) : SigStr
  | raw (s : String) : SigStr
deriving DecidableEq, Repr

/-- A string held in the `id` field: either the hex SHA-256 of canonical
bytes `msg` followed by the raw signature bytes (themselves determined
by `sigKey` and `sigMsg`), or any other string. -/
inductive IdStr where
  | hash (msg : Signable) (sigKey : Nat) (sigMsg : Signable) : IdStr
  | raw (s : String) : IdStr
deriving DecidableEq, Repr

/-- base64-decode + length check of a `public_key` field. -/
def decodePubKey : KeyStr → Option Nat
  | .enc k => some k
  | .raw _ => none

/-- base64-decode + length check of a `signature` field. -/
def decodeSig : SigStr → Option (Nat × Signable)
  | .enc k m => some (k, m)
  | .raw _ => none

/-- `strings.TrimSpace(op.ID) == ""`: hex digests are never blank. -/
def IdStr.isBlank : IdStr → Bool
  | .hash _ _ _ => false
  | .raw s => trimSpace s = ""

/-! ## Operations (`store.go`) -/

/-- `Operation` (`store.go`): a signed unit replicated across peers. -/
structure Operation where
  id : IdStr
  type : String
  author : String
  seq : Nat
  timestamp : String
  payload : Payload
  publicKey : KeyStr
  signature : SigStr
deriving DecidableEq, Repr

/-- `canonicalOperationBytes` (`store.go`): normalize an empty payload
to `\x7b\x7d`, reject invalid JSON, and encode the signable subset. -/
def canonicalOperationBytes (op : Operation) : Except String Signable :=
  let payload := normPayload op.payload
  if payload.isValidJson then
    .ok { type := op.type, author := op.author, seq := op.seq,
          timestamp := op.timestamp, payload := payload,
          publicKey := op.publicKey }
  else
    .error "operation payload must be valid JSON"

/-- `computeOperationID` (`store.go`): hex SHA-256 of the signable bytes
followed by the raw signature bytes. -/
def computeOperationID (signable : Signable) (sigKey : Nat) (sigMsg : Signable) : IdStr :=
  .hash signable sigKey sigMsg

/-- `signOperation` (`store.go`): canonicalize, sign with the private
key, and derive the operation id. -/
def signOperation (op : Operation) (priv : Nat) : Except String (SigStr × IdStr) :=
  match canonicalOperationBytes op with
  | .error e => .error e
  | .ok signable =>
    .ok (SigStr.enc priv signable, computeOperationID signable priv signable)

/-- `verifyOperation` (`store.go`), with the checks in source order.
The two-step base64-decode-then-length-check failures of `public_key`
and `signature` are collapsed into one decoding failure each. -/
def verifyOperation (op : Operation) : Except String Unit :=
  if op.id.isBlank then .error "operation ID is required"
  else if trimSpace op.type = "" then .error "operation type is required"
  else if trimSpace op.author = "" then .error "operation author is required"
  else if op.seq = 0 then .error "operation sequence must be > 0"
  else if ¬ parsesRFC3339Nano op.timestamp then .error "invalid timestamp"
  else
    match decodePubKey op.publicKey with
    | none => .error "invalid public key"
    | some pub =>
      if op.author ≠ nodeIDFromPublicKey pub then
        .error "operation author does not match public key"
      else
        match decodeSig op.signature with
        | none => .error "invalid signature encoding"
        | some sig =>
          match canonicalOperationBytes op with
          | .error e => .error e
          | .ok signable =>
            if ¬ (sig.1 = pub ∧ sig.2 = signable) then .error "invalid signature"
            else if op.id ≠ computeOperationID signable sig.1 sig.2 then
              .error "operation ID does not match content/signature"
            else .ok ()

/-! ## The store and its maps

Go's `map[string]uint64` and `map[string]string` are modelled as
association lists read through `lookup` functions with the zero-value
default Go map reads have; `map[string]struct\x7b\x7d` membership is
`idKnown`. -/

abbrev SummaryMap := List (String × Nat)

abbrev SeqIndex := List ((String × Nat) × IdStr)

/-- A Go map read `v, ok := m[k]`, on the association-list
representation of the map. -/
def lookupA {κ ν : Type} [DecidableEq κ] : List (κ × ν) → κ → Option ν
  | [], _ => none
  | e :: rest, k => if e.1 = k then some e.2 else lookupA rest k

/-- A Go map write `m[k] = v`, on the association-list representation
of the map. -/
def setA {κ ν : Type} [DecidableEq κ] : List (κ × ν) → κ → ν → List (κ × ν)
  | [], k, v => [(k, v)]
  | e :: rest, k, v => if e.1 = k then (k, v) :: rest else e :: setA rest k v

/-- A Go map read `m[k]` with the `uint64` zero value for missing keys. -/
def lookupD (m : SummaryMap) (k : String) : Nat := (lookupA m k).getD 0

/-- `opIDs` membership, `_, exists := s.opIDs[op.ID]`. -/
def idKnown (ids : List IdStr) (i : IdStr) : Bool :=
  ids.any (fun j => decide (j = i))

/-- `Store` (`store.go`).  The identity is the symbolic keypair `key`;
`OpenStore` guarantees `identity.NodeID` is derived from the public key,
so the node id is `nodeIDFromPublicKey key`.  The `authorSeqIndex` key
`author + ":" + seq` is modelled by the pair `(author, seq)`: decimal
digits never contain `:`, so the Go key is in bijection with the pair. -/
structure Store where
  key : Nat
  ops : List Operation
  opIDs : List IdStr
  seqByAuthor : SummaryMap
  authorSeqIndex : SeqIndex
  peers : List String
deriving DecidableEq, Repr

/-- A freshly opened store (empty data directory) with identity `k`. -/
def initStore (k : Nat) : Store :=
  { key := k, ops := [], opIDs := [], seqByAuthor := [], authorSeqIndex := [], peers := [] }

/-- `Store.NodeID`. -/
def Store.nodeID (s : Store) : String := nodeIDFromPublicKey s.key

/-- The error of `fmt.Errorf("conflicting operations for %s seq=%d", ...)`. -/
def conflictMsg (author : String) (seq : Nat) : String :=
  "conflicting operations for " ++ author ++ " seq=" ++ Nat.repr seq

/-- The in-memory part of a successful insert in `addOperationLocked`. -/
def insertOpLocked (s : Store) (op : Operation) : Store :=
  { s with
    ops := s.ops ++ [op]
    opIDs := op.id :: s.opIDs
    authorSeqIndex := setA s.authorSeqIndex (op.author, op.seq) op.id
    seqByAuthor :=
      if lookupD s.seqByAuthor op.author < op.seq then
        setA s.seqByAuthor op.author op.seq
      else s.seqByAuthor }

/-- `addOperationLocked` (`store.go`) with persistence dropped; returns
the `(bool, error)` pair and the store after the call. -/
def addOperationLocked (s : Store) (op : Operation) : Except String Bool × Store :=
  match verifyOperation op with
  | .error e => (.error e, s)
  | .ok _ =>
    if idKnown s.opIDs op.id then (.ok false, s)
    else
      match lookupA s.authorSeqIndex (op.author, op.seq) with
      | some existingID =>
        if existingID ≠ op.id then (.error (conflictMsg op.author op.seq), s)
        else (.ok true, insertOpLocked s op)
      | none => (.ok true, insertOpLocked s op)

/-- `AddRemoteOp` (`store.go`). -/
def AddRemoteOp (s : Store) (op : Operation) : Except String Bool × Store :=
  addOperationLocked s op

/-- `AppendLocalOp` (`store.go`), with `time.Now()` passed explicitly as
the symbolic instant `now`. -/
def AppendLocalOp (s : Store) (opType : String) (payload : Payload) (now : Nat) :
    Except String (Operation × Store) :=
  let opType := trimSpace opType
  if opType = "" then .error "operation type is required"
  else
    let payload := normPayload payload
    if ¬ payload.isValidJson then .error "payload must be valid JSON"
    else
      let op : Operation :=
        { id := .raw "", type := opType, author := s.nodeID,
          seq := lookupD s.seqByAuthor s.nodeID + 1,
          timestamp := fmtTime now, payload := payload,
          publicKey := .enc s.key, signature := .raw "" }
      match signOperation op s.key with
      | .error e => .error e
      | .ok (sig, opID) =>
        let op := { op with signature := sig, id := opID }
        match addOperationLocked s op with
        | (.error e, _) => .error e
        | (.ok added, s') =>
          if added then .ok (op, s') else .error "operation already exists"

/-- `Summary` (`store.go`): a copy of the max-known-sequence map. -/
def Summary (s : Store) : SummaryMap := s.seqByAuthor

/-- The comparator of the `sort.SliceStable` calls in `MissingFor` and
`Ops`: by author, then by sequence. -/
def opLess (a b : Operation) : Bool :=
  if a.author ≠ b.author then strLt a.author b.author
  else decide (a.seq < b.seq)

/-- `sort.SliceStable(ordered, less)`: the unique stable sort. -/
def sortOps (l : List Operation) : List Operation :=
  l.mergeSort (fun a b => ! opLess b a)

/-- The collection loop of `MissingFor`: append each operation newer
than the summary, stopping once `limit > 0` many are collected. -/
def missingLoop (summary : SummaryMap) (limit : Int) :
    List Operation → List Operation → List Operation
  | [], out => out
  | op :: rest, out =>
    if lookupD summary op.author < op.seq then
      let out' := out ++ [op]
      if 0 < limit ∧ limit ≤ (out'.length : Int) then out'
      else missingLoop summary limit rest out'
    else missingLoop summary limit rest out

/-- `MissingFor` (`store.go`).  A Go `nil` summary map is the empty
list, and map reads default absent authors to `0` via `lookupD`. -/
def MissingFor (s : Store) (summary : SummaryMap) (limit : Int) : List Operation :=
  missingLoop summary limit (sortOps s.ops) []

/-- `Ops` (`store.go`): author/sequence order, keeping the tail when
truncated. -/
def Ops (s : Store) (limit : Int) : List Operation :=
  let ordered := sortOps s.ops
  if 0 < limit ∧ (limit : Int) < (ordered.length : Int) then
    ordered.drop (ordered.length - limit.toNat)
  else ordered

/-! ## Peer registry (`store.go`)

Go's `net/url.Parse` and `URL.String` are modelled structurally over
whitespace-free URLs: the authority runs to the first `/`, `?` or `#`,
the path to the first `?` or `#`, then query and fragment.  Percent
re-encoding, userinfo, and host validation are outside the model, which
is why whitespace inside a URL is rejected at parse time (Go accepts a
space in a path but re-encodes it as `%20` when rendering). -/

structure URL where
  scheme : String
  host : String
  path : String
  rawQuery : String
  fragment : String
deriving DecidableEq, Repr

/-- Split a character list at the first occurrence of `://`, as both
`strings.Contains(raw, "://")` and the scheme split of `url.Parse`
see it. -/
def splitSchemeSep : List Char → Option (List Char × List Char)
  | [] => none
  | ':' :: '/' :: '/' :: rest => some ([], rest)
  | c :: rest =>
    match splitSchemeSep rest with
    | some (a, b) => some (c :: a, b)
    | none => none

def hostStop (c : Char) : Bool := c = '/' || c = '?' || c = '#'

def pathStop (c : Char) : Bool := c = '?' || c = '#'

/-- Structural model of `url.Parse` on an absolute URL. -/
def parseURL (raw : String) : Option URL :=
  if raw.data.any isSpaceGo then none
  else
    match splitSchemeSep raw.data with
    | none => none
    | some (schemeChars, rest) =>
      let host := rest.takeWhile (fun c => ! hostStop c)
      let r1 := rest.dropWhile (fun c => ! hostStop c)
      let path := r1.takeWhile (fun c => ! pathStop c)
      let r2 := r1.dropWhile (fun c => ! pathStop c)
      let query := match r2 with
        | '?' :: qrest => qrest.takeWhile (fun c => ! decide (c = '#'))
        | _ => []
      let r3 := match r2 with
        | '?' :: qrest => qrest.dropWhile (fun c => ! decide (c = '#'))
        | _ => r2
      let frag := match r3 with
        | '#' :: f => f
        | _ => []
      some { scheme := String.mk schemeChars, host := String.mk host,
             path := String.mk path, rawQuery := String.mk query,
             fragment := String.mk frag }

/-- Structural model of `url.URL.String` for URLs parsed as above. -/
def URL.render (u : URL) : String :=
  u.scheme ++ "://" ++ u.host ++ u.path
    ++ (if u.rawQuery = "" then "" else "?" ++ u.rawQuery)
    ++ (if u.fragment = "" then "" else "#" ++ u.fragment)

/-- `strings.TrimSuffix(path, "/")`: drop one trailing slash. -/
def trimSuffixSlash (s : String) : String :=
  if s.data.getLast? = some '/' then String.mk s.data.dropLast else s

/-- `normalizePeer` (`store.go`). -/
def normalizePeer (raw : String) : Except String String :=
  let raw := trimSpace raw
  if raw = "" then .error "peer address cannot be empty"
  else
    let raw := if (splitSchemeSep raw.data).isSome then raw else "http://" ++ raw
    match parseURL raw with
    | none => .error "invalid peer URL"
    | some u =>
      if u.scheme ≠ "http" ∧ u.scheme ≠ "https" then
        .error "peer URL scheme must be http or https"
      else if u.host = "" then .error "peer URL host is required"
      else if u.rawQuery ≠ "" ∨ u.fragment ≠ "" then
        .error "peer URL cannot include query or fragment"
      else
        let path := trimSuffixSlash u.path
        let path := if path = "/" then "" else path
        .ok (URL.render { u with path := path })

/-- `sort.Strings`. -/
def sortStrings (l : List String) : List String :=
  l.mergeSort (fun a b => ! strLt b a)

/-- `AddPeer` (`store.go`) with persistence dropped. -/
def AddPeer (s : Store) (raw : String) : Except String (String × Store) :=
  match normalizePeer raw with
  | .error e => .error e
  | .ok normalized =>
    if s.peers.any (fun p => decide (p = normalized)) then .ok (normalized, s)
    else .ok (normalized, { s with peers := sortStrings (s.peers ++ [normalized]) })

/-! ## Pending-push queue (`pending.go`)

The queue file `pending_pushes.json` is modelled as the list of records
it holds; every operation loads it, edits it, and saves it back, so the
model functions map a file state to a new file state. -/

structure PendingPush where
  proposalID : String
  remote : String
  sourceRef : String
  targetRef : String
  newOID : String
  gitArgs : List String
  status : String
  attempts : Nat
  lastError : String
  createdAt : String
  updatedAt : String
  lastTriedAt : String
  completedAt : String
deriving DecidableEq, Repr

def PendingPushStatusPending : String := "pending"

def PendingPushStatusFailed : String := "failed"

def PendingPushStatusCompleted : String := "completed"

/-- `normalizePendingPush` (`pending.go`).  The `GitArgs == nil`
normalization is identity here because the model's `gitArgs` is always a
list. -/
def normalizePendingPush (push : PendingPush) (forWrite : Bool) (now : Nat) :
    Except String PendingPush :=
  let push := { push with
    proposalID := trimSpace push.proposalID, remote := trimSpace push.remote,
    sourceRef := trimSpace push.sourceRef, targetRef := trimSpace push.targetRef,
    newOID := trimSpace push.newOID, lastError := trimSpace push.lastError }
  if push.proposalID = "" then .error "pending push proposal ID is required"
  else if push.targetRef = "" then .error "pending push target ref is required"
  else
    let push := if push.status = "" then { push with status := PendingPushStatusPending } else push
    if push.status ≠ PendingPushStatusPending ∧ push.status ≠ PendingPushStatusFailed
        ∧ push.status ≠ PendingPushStatusCompleted then
      .error ("invalid pending push status " ++ "\"" ++ push.status ++ "\"")
    else if forWrite then
      .ok { push with
        createdAt := if push.createdAt = "" then fmtTime now else push.createdAt,
        updatedAt := fmtTime now }
    else .ok push

/-- The comparator of the `sort.SliceStable` in
`loadPendingPushesLocked`: by creation time, then proposal id. -/
def pushLess (a b : PendingPush) : Bool :=
  if a.createdAt ≠ b.createdAt then strLt a.createdAt b.createdAt
  else strLt a.proposalID b.proposalID

/-- `loadPendingPushesLocked` (`pending.go`): normalize every record
(read mode) and sort stably. -/
def loadPendingPushes (file : List PendingPush) : Except String (List PendingPush) :=
  match file.mapM (fun p => normalizePendingPush p false 0) with
  | .error e => .error e
  | .ok pushes => .ok (pushes.mergeSort (fun a b => ! pushLess b a))

/-- The replace scan of `UpsertPendingPush`: find the first record with
the same proposal id, keep its `created_at`, keep the larger `attempts`,
and overwrite the rest. -/
def upsertReplace (push : PendingPush) :
    List PendingPush → List PendingPush × Bool × PendingPush
  | [] => ([], false, push)
  | existing :: rest =>
    if existing.proposalID = push.proposalID then
      let push := { push with
        createdAt := existing.createdAt,
        attempts := if push.attempts < existing.attempts then existing.attempts else push.attempts }
      (push :: rest, true, push)
    else
      let (l, replaced, p) := upsertReplace push rest
      (existing :: l, replaced, p)

/-- `UpsertPendingPush` (`pending.go`): returns the stored record and
the saved queue file. -/
def UpsertPendingPush (file : List PendingPush) (push : PendingPush) (now : Nat) :
    Except String (PendingPush × List PendingPush) :=
  match normalizePendingPush push true now with
  | .error e => .error e
  | .ok push =>
    match loadPendingPushes file with
    | .error e => .error e
    | .ok pushes =>
      let (pushes', replaced, push') := upsertReplace push pushes
      .ok (push', if replaced then pushes' else pushes' ++ [push'])

/-- The error of `fmt.Errorf("pending push for proposal %q not found", ...)`. -/
def notFoundMsg (proposalID : String) : String :=
  "pending push for proposal " ++ "\"" ++ proposalID ++ "\"" ++ " not found"

/-- The update scan of `updatePendingPushStatus`: rewrite the first
record with the given proposal id, `none` when there is none. -/
def updateStatusLoop (proposalID status lastError : String) (now : Nat) :
    List PendingPush → Option (List PendingPush)
  | [] => none
  | push :: rest =>
    if push.proposalID = proposalID then
      let push := { push with
        status := status, lastError := trimSpace lastError,
        updatedAt := fmtTime now, lastTriedAt := fmtTime now,
        attempts := push.attempts + 1 }
      let push := if status = PendingPushStatusCompleted then
        { push with completedAt := fmtTime now, lastError := "" } else push
      some (push :: rest)
    else
      match updateStatusLoop proposalID status lastError now rest with
      | some l => some (push :: l)
      | none => none

/-- `updatePendingPushStatus` (`pending.go`): returns the saved queue
file, or the error the call surfaces. -/
def updatePendingPushStatus (file : List PendingPush)
    (proposalID status lastError : String) (now : Nat) :
    Except String (List PendingPush) :=
  let proposalID := trimSpace proposalID
  if proposalID = "" then .error "proposal ID is required"
  else
    match loadPendingPushes file with
    | .error e => .error e
    | .ok pushes =>
      match updateStatusLoop proposalID status lastError now pushes with
      | some pushes' => .ok pushes'
      | none => .error (notFoundMsg proposalID)

/-- `MarkPendingPushPending` (`pending.go`). -/
def MarkPendingPushPending (file : List PendingPush) (proposalID message : String) (now : Nat) :
    Except String (List PendingPush) :=
  updatePendingPushStatus file proposalID PendingPushStatusPending message now

/-- `MarkPendingPushFailed` (`pending.go`). -/
def MarkPendingPushFailed (file : List PendingPush) (proposalID message : String) (now : Nat) :
    Except String (List PendingPush) :=
  updatePendingPushStatus file proposalID PendingPushStatusFailed message now

/-- `MarkPendingPushCompleted` (`pending.go`). -/
def MarkPendingPushCompleted (file : List PendingPush) (proposalID : String) (now : Nat) :
    Except String (List PendingPush) :=
  updatePendingPushStatus file proposalID PendingPushStatusCompleted "" now

/-! ## `processPendingPushes` (CLI)

The consensus engine the loop consults (`ProposalStatus`,
`CertifyProposal`) and the git backend (`runGitFn`) are not under the
embedded sources; they are abstracted as an environment of oracles, and
the queue mutations the loop performs (`MarkPendingPush*`, the backend
push, `recordGitEvent`) are captured as an action trace in call order. -/

/-- Modelled from the spec (status derivation, section 4.4) and the
fields the loop reads: the derived status of a proposal.  The
`ProposalStatus` implementation itself is not among the sources. -/
structure ProposalStatusR where
  expired : Bool
  certified : Bool
  hasQuorum : Bool
  yesVoters : List String
  members : List String
  requiredYes : Nat
deriving DecidableEq, Repr

/-- The oracles `processPendingPushes` consults. -/
structure PendEnv where
  proposalStatus : String → Except String ProposalStatusR
  certifyProposal : String → Except String Unit
  runGit : List String → Except String Unit

/-- `pendingPushProcessResult` (CLI). -/
structure PendResult where
  checked : Nat
  executed : Nat
  pending : Nat
  failed : Nat
deriving DecidableEq, Repr

def zeroPendResult : PendResult := ⟨0, 0, 0, 0⟩

/-- The observable side effects of one `processPendingPushes` run, in
call order. -/
inductive PAction where
  | markPending (proposalID message : String)
  | markFailed (proposalID message : String)
  | markCompleted (proposalID : String)
  | certify (proposalID : String)
  | gitPush (args : List String)
  | recordGitPush (proposalID : String)
deriving DecidableEq, Repr

/-- The message `fmt.Sprintf("awaiting quorum yes=%d/%d required=%d", ...)`. -/
def awaitingQuorumMsg (st : ProposalStatusR) : String :=
  "awaiting quorum yes=" ++ Nat.repr st.yesVoters.length ++ "/"
    ++ Nat.repr st.members.length ++ " required=" ++ Nat.repr st.requiredYes

def expiredMsg : String := "proposal has expired"

/-- `if firstErr == nil then firstErr = err`. -/
def updateFirstErr (firstErr : Option String) (e : String) : Option String :=
  match firstErr with
  | none => some e
  | some e0 => some e0

/-- The tail of the loop body: run `git push` with the recorded
arguments, marking the queue entry completed or failed. -/
def gitPushPhase (env : PendEnv) (push : PendingPush) (res : PendResult)
    (firstErr : Option String) : PendResult × Option String × List PAction :=
  match env.runGit ("push" :: push.gitArgs) with
  | .error e =>
    ({ res with failed := res.failed + 1 }, updateFirstErr firstErr e,
      [.gitPush ("push" :: push.gitArgs), .markFailed push.proposalID e])
  | .ok _ =>
    ({ res with executed := res.executed + 1 }, firstErr,
      [.gitPush ("push" :: push.gitArgs), .markCompleted push.proposalID,
       .recordGitPush push.proposalID])

/-- The body of the `processPendingPushes` loop for one selected push
(everything after the two skip checks). -/
def processOnePush (env : PendEnv) (push : PendingPush) (res : PendResult)
    (firstErr : Option String) : PendResult × Option String × List PAction :=
  let res := { res with checked := res.checked + 1 }
  match env.proposalStatus push.proposalID with
  | .error e =>
    ({ res with failed := res.failed + 1 }, updateFirstErr firstErr e,
      [.markFailed push.proposalID e])
  | .ok st =>
    if st.expired then
      ({ res with failed := res.failed + 1 }, updateFirstErr firstErr expiredMsg,
        [.markFailed push.proposalID expiredMsg])
    else if ¬ st.certified ∧ ¬ st.hasQuorum then
      ({ res with pending := res.pending + 1 }, firstErr,
        [.markPending push.proposalID (awaitingQuorumMsg st)])
    else if ¬ st.certified then
      match env.certifyProposal push.proposalID with
      | .error e =>
        ({ res with failed := res.failed + 1 }, updateFirstErr firstErr e,
          [.certify push.proposalID, .markFailed push.proposalID e])
      | .ok _ =>
        let (res', fe', acts) := gitPushPhase env push res firstErr
        (res', fe', .certify push.proposalID :: acts)
    else gitPushPhase env push res firstErr

/-- The iteration of `processPendingPushes` over the loaded queue
snapshot, with the two `continue` filters (`onlyProposalID` mismatch and
completed status). -/
def processLoop (env : PendEnv) (onlyProposalID : String) :
    List PendingPush → PendResult → Option String →
    PendResult × Option String × List PAction
  | [], res, firstErr => (res, firstErr, [])
  | push :: rest, res, firstErr =>
    if (onlyProposalID ≠ "" ∧ push.proposalID ≠ onlyProposalID)
        ∨ push.status = PendingPushStatusCompleted then
      processLoop env onlyProposalID rest res firstErr
    else
      let (res', firstErr', acts) := processOnePush env push res firstErr
      let (r, fe, acts') := processLoop env onlyProposalID rest res' firstErr'
      (r, fe, acts ++ acts')

/-- `processPendingPushes` (CLI): list the queue, iterate, and return
the counters with the first error. -/
def processPendingPushes (env : PendEnv) (onlyProposalID : String)
    (file : List PendingPush) : PendResult × Option String × List PAction :=
  match loadPendingPushes file with
  | .error e => (zeroPendResult, some e, [])
  | .ok pushes => processLoop env onlyProposalID pushes zeroPendResult none

/-! ## Reachability and invariants -/

/-- The greatest sequence number among an author's operations in a log
(`0` when the author is absent). -/
def maxSeqOps (ops : List Operation) (author : String) : Nat :=
  ops.foldr (fun o acc => if o.author = author then max o.seq acc else acc) 0

/-- Store states reachable through any sequence of `AppendLocalOp` and
`AddRemoteOp` calls from a fresh store. -/
inductive Reachable : Store → Prop where
  | init (k : Nat) : Reachable (initStore k)
  | appendLocal {s : Store} {opType : String} {payload : Payload} {now : Nat}
      {op : Operation} {s' : Store} :
      Reachable s → AppendLocalOp s opType payload now = .ok (op, s') → Reachable s'
  | addRemote {s : Store} {op : Operation} {r : Except String Bool} {s' : Store} :
      Reachable s → AddRemoteOp s op = (r, s') → Reachable s'

/-- Store states reachable when, additionally, every remote operation is
delivered in per-author order: its `seq` exceeds the author's greatest
stored `seq` by at most one at the time of the call. -/
inductive ReachableInOrder : Store → Prop where
  | init (k : Nat) : ReachableInOrder (initStore k)
  | appendLocal {s : Store} {opType : String} {payload : Payload} {now : Nat}
      {op : Operation} {s' : Store} :
      ReachableInOrder s → AppendLocalOp s opType payload now = .ok (op, s') →
      ReachableInOrder s'
  | addRemote {s : Store} {op : Operation} {r : Except String Bool} {s' : Store} :
      ReachableInOrder s → op.seq ≤ maxSeqOps s.ops op.author + 1 →
      AddRemoteOp s op = (r, s') → ReachableInOrder s'

/-- The set of sequence numbers of an author's operations in a log. -/
def seqFinset (ops : List Operation) (author : String) : Finset Nat :=
  ((ops.filter (fun o => decide (o.author = author))).map Operation.seq).toFinset

/-- Sequence density: every author present in the log covers exactly
`1, ..., maxSeq`. -/
def DenseLog (s : Store) : Prop :=
  ∀ op ∈ s.ops, seqFinset s.ops op.author = Finset.Icc 1 (maxSeqOps s.ops op.author)

instance (s : Store) : Decidable (DenseLog s) := by
  unfold DenseLog; infer_instance

/-- Consistency of the store's derived indices with its log. -/
structure StoreWF (s : Store) : Prop where
  ids : ∀ i : IdStr, idKnown s.opIDs i = true ↔ ∃ o ∈ s.ops, o.id = i
  idx : ∀ (a : String) (n : Nat) (i : IdStr),
    lookupA s.authorSeqIndex (a, n) = some i ↔
      ∃ o ∈ s.ops, o.author = a ∧ o.seq = n ∧ o.id = i
  maxa : ∀ a : String, lookupD s.seqByAuthor a = maxSeqOps s.ops a
  dom : ∀ a : String, (lookupA s.seqByAuthor a).isSome = true ↔ ∃ o ∈ s.ops, o.author = a
  vrf : ∀ o ∈ s.ops, verifyOperation o = .ok ()

/-! ## Concrete example data

Closed instances used by witnesses and counterexamples: the operation a
store with keypair `k` signs for a (pre-trimmed) type, payload, sequence
and instant, and the store state holding exactly one such operation. -/

/-- The signable document keypair `k` signs for sequence `n`, instant
`t`, type `ty` and payload `p`. -/
def exSignable (k n t : Nat) (ty : String) (p : Payload) : Signable :=
  { type := ty, author := nodeIDFromPublicKey k, seq := n,
    timestamp := fmtTime t, payload := normPayload p, publicKey := .enc k }

/-- The signed operation keypair `k` produces for sequence `n`, instant
`t`, type `ty` and payload `p`. -/
def exOp (k n t : Nat) (ty : String) (p : Payload) : Operation :=
  { id := .hash (exSignable k n t ty p) k (exSignable k n t ty p), type := ty,
    author := nodeIDFromPublicKey k, seq := n, timestamp := fmtTime t,
    payload := normPayload p, publicKey := .enc k,
    signature := .enc k (exSignable k n t ty p) }

/-- The store with identity `k` holding exactly the operation `op`. -/
def exStore1 (k : Nat) (op : Operation) : Store :=
  { key := k, ops := [op], opIDs := [op.id],
    seqByAuthor := [(op.author, op.seq)],
    authorSeqIndex := [((op.author, op.seq), op.id)], peers := [] }

/-- C1 example: the operation appended for an empty payload. -/
def c1op : Operation := exOp 0 1 0 "t" Payload.empty

def c1store : Store := exStore1 0 c1op

/-- C2 example: a stored operation and a tampered copy keeping its id. -/
def c2op : Operation := exOp 0 1 0 "t" (Payload.json "1")

def c2store : Store := exStore1 0 c2op

def c2bad : Operation := { c2op with timestamp := "x" }

/-- C3 counterexample: an out-of-order remote operation (sequence 2 with
no sequence 1) accepted by a fresh store. -/
def c3op : Operation := exOp 0 2 0 "t" (Payload.json "1")

def c3store : Store := exStore1 1 c3op

/-- C3 witness store: one local append. -/
def c3wop : Operation := exOp 3 1 0 "t" (Payload.json "1")

def c3wstore : Store := exStore1 3 c3wop

/-- C9 witness store. -/
def c9op : Operation := exOp 4 1 0 "t" (Payload.json "1")

def c9store : Store := exStore1 4 c9op

/-- C10 witness: an operation failing verification (zero sequence). -/
def c10bad : Operation := { exOp 0 1 0 "t" (Payload.json "1") with seq := 0 }

/-- C5 witness store: two operations of one author, listed newest
first. -/
def c5store : Store :=
  { initStore 6 with
    ops := [exOp 6 2 0 "t" (Payload.json "1"), exOp 6 1 0 "t" (Payload.json "1")] }

/-- C4 example queue entries and oracle environment. -/
def c4push : PendingPush :=
  { proposalID := "p", remote := "origin", sourceRef := "refs/heads/main",
    targetRef := "refs/heads/main", newOID := "abc", gitArgs := [],
    status := "pending", attempts := 0, lastError := "", createdAt := "x",
    updatedAt := "x", lastTriedAt := "", completedAt := "" }

def c4cpush : PendingPush := { c4push with proposalID := "q", status := "completed" }

def c4st : ProposalStatusR :=
  { expired := true, certified := false, hasQuorum := false,
    yesVoters := [], members := [], requiredYes := 1 }

/-- A proposal that is alive but still short of quorum. -/
def c4st2 : ProposalStatusR :=
  { expired := false, certified := false, hasQuorum := false,
    yesVoters := [], members := ["a", "b", "c"], requiredYes := 2 }

def c4push2 : PendingPush := { c4push with proposalID := "r" }

def c4env : PendEnv :=
  { proposalStatus := fun pid => if pid = "p" then .ok c4st else .ok c4st2,
    certifyProposal := fun _ => .ok (),
    runGit := fun _ => .ok () }

/-- C6 example: an upsert whose caller supplies `created_at`. -/
def c6push : PendingPush :=
  { proposalID := "p", remote := "", sourceRef := "", targetRef := "r",
    newOID := "", gitArgs := [], status := "", attempts := 0, lastError := "",
    createdAt := "x", updatedAt := "", lastTriedAt := "", completedAt := "" }

def c6np : PendingPush :=
  { c6push with status := PendingPushStatusPending, updatedAt := fmtTime 0 }

def c6wpush : PendingPush := { c6push with createdAt := "" }

def c6wnp : PendingPush :=
  { c6wpush with
    status := PendingPushStatusPending, createdAt := fmtTime 0,
    updatedAt := fmtTime 0 }

/-- C7 example queue. -/
def c7push : PendingPush :=
  { proposalID := "p", remote := "origin", sourceRef := "", targetRef := "r",
    newOID := "", gitArgs := [], status := "pending", attempts := 2,
    lastError := "", createdAt := "c", updatedAt := "c", lastTriedAt := "",
    completedAt := "" }

def c7upd : PendingPush :=
  { c7push with
    status := PendingPushStatusFailed, lastError := "boom",
    updatedAt := fmtTime 0, lastTriedAt := fmtTime 0,
    attempts := c7push.attempts + 1 }

/-- C8 example: the registry after adding the three spellings. -/
def c8s1 : Store := { initStore 7 with peers := ["http://127.0.0.1:8787"] }


/-! # Theorems

## Basic list and string lemmas -/

theorem dropWhile_all_false {p : Char → Bool} :
    ∀ {l : List Char}, (∀ x ∈ l, p x = false) → l.dropWhile p = l
  | [], _ => rfl
  | c :: l, h => by
    have hc : p c = false := h c (by simp)
    simp [List.dropWhile, hc]

theorem dropWhile_all_true {p : Char → Bool} :
    ∀ {l : List Char}, (∀ x ∈ l, p x = true) → l.dropWhile p = []
  | [], _ => rfl
  | c :: l, h => by
    have hc : p c = true := h c (by simp)
    simp only [List.dropWhile, hc]
    exact dropWhile_all_true fun x hx => h x (by simp [hx])

theorem mem_dropWhile_of_not {p : Char → Bool} {c : Char} :
    ∀ {l : List Char}, c ∈ l → p c = false → c ∈ l.dropWhile p
  | [], h, _ => by cases h
  | a :: l, h, hc => by
    by_cases ha : p a = true
    · simp only [List.dropWhile, ha]
      rcases List.mem_cons.mp h with h | h
      · subst h; rw [ha] at hc; cases hc
      · exact mem_dropWhile_of_not h hc
    · simp only [List.dropWhile, Bool.of_not_eq_true ha]
      exact h

theorem all_of_dropWhile_all {p : Char → Bool} :
    ∀ {l : List Char}, (∀ x ∈ l.dropWhile p, p x = true) → ∀ x ∈ l, p x = true := by
  intro l h x hx
  by_cases hpx : p x = true
  · exact hpx
  · exact h x (mem_dropWhile_of_not hx (Bool.of_not_eq_true hpx))

theorem trimSpace_data (s : String) :
    (trimSpace s).data = ((s.data.dropWhile isSpaceGo).reverse.dropWhile isSpaceGo).reverse :=
  rfl

theorem trimSpace_eq_empty_iff {s : String} :
    trimSpace s = "" ↔ ∀ c ∈ s.data, isSpaceGo c = true := by
  rw [String.ext_iff, trimSpace_data]
  show _ = ([] : List Char) ↔ _
  rw [List.reverse_eq_nil_iff, List.dropWhile_eq_nil_iff]
  constructor
  · intro h
    refine @all_of_dropWhile_all isSpaceGo s.data ?_
    intro x hx
    exact h x (by simpa using hx)
  · intro h x hx
    have hmem : x ∈ s.data.dropWhile isSpaceGo := by simpa using hx
    have : x ∈ s.data := (List.dropWhile_sublist isSpaceGo).mem hmem
    exact h x this

theorem mem_trimSpace {s : String} {c : Char} (hc : c ∈ s.data) (hns : isSpaceGo c = false) :
    c ∈ (trimSpace s).data := by
  rw [trimSpace_data, List.mem_reverse]
  exact mem_dropWhile_of_not (by simpa using mem_dropWhile_of_not hc hns) hns

theorem trimSpace_trimSpace_ne {s : String} (h : trimSpace s ≠ "") :
    trimSpace (trimSpace s) ≠ "" := by
  intro hcon
  apply h
  rw [trimSpace_eq_empty_iff]
  intro c hc
  by_contra hns
  have : c ∈ (trimSpace s).data := mem_trimSpace hc (Bool.of_not_eq_true hns)
  have := trimSpace_eq_empty_iff.mp hcon c this
  rw [this] at hns
  exact hns rfl

theorem trimSpace_eq_self {s : String} (h : ∀ c ∈ s.data, isSpaceGo c = false) :
    trimSpace s = s := by
  rw [String.ext_iff, trimSpace_data]
  rw [dropWhile_all_false h, dropWhile_all_false (by intro x hx; exact h x (by simpa using hx))]
  exact List.reverse_reverse _

theorem charNat_inj {a b : Char} (h : a.toNat = b.toNat) : a = b :=
  Char.ext (UInt32.ext h)

theorem strLtL_asymm : ∀ {a b : List Char}, strLtL a b = true → strLtL b a = false
  | [], [], h => by simp [strLtL] at h
  | [], _ :: _, _ => by simp [strLtL]
  | _ :: _, [], h => by simp [strLtL] at h
  | a :: as, b :: bs, h => by
    simp only [strLtL] at h ⊢
    rcases Nat.lt_trichotomy a.toNat b.toNat with hab | hab | hab
    · simp [hab, Nat.not_lt.mpr (Nat.le_of_lt hab), Nat.lt_irrefl]
    · simp only [hab, Nat.lt_irrefl, if_false] at h ⊢
      exact strLtL_asymm h
    · simp [hab, Nat.not_lt.mpr (Nat.le_of_lt hab)] at h

theorem strLtL_trans : ∀ {a b c : List Char},
    strLtL a b = true → strLtL b c = true → strLtL a c = true
  | [], [], _, h, _ => by simp [strLtL] at h
  | [], _ :: _, [], _, h => by simp [strLtL] at h
  | [], _ :: _, _ :: _, _, _ => by simp [strLtL]
  | _ :: _, [], _, h, _ => by simp [strLtL] at h
  | _ :: _, _ :: _, [], _, h => by simp [strLtL] at h
  | a :: as, b :: bs, c :: cs, h1, h2 => by
    simp only [strLtL] at h1 h2 ⊢
    rcases Nat.lt_trichotomy a.toNat b.toNat with hab | hab | hab
    · rcases Nat.lt_trichotomy b.toNat c.toNat with hbc | hbc | hbc
      · simp [Nat.lt_trans hab hbc]
      · simp [hbc ▸ hab]
      · simp [hbc, Nat.not_lt.mpr (Nat.le_of_lt hbc)] at h2
    · rcases Nat.lt_trichotomy b.toNat c.toNat with hbc | hbc | hbc
      · simp [hab ▸ hbc]
      · rw [if_neg (by omega), if_neg (by omega)] at h1
        rw [if_neg (by omega), if_neg (by omega)] at h2
        rw [if_neg (by omega), if_neg (by omega)]
        exact strLtL_trans h1 h2
      · simp [hbc, Nat.not_lt.mpr (Nat.le_of_lt hbc)] at h2
    · simp [hab, Nat.not_lt.mpr (Nat.le_of_lt hab)] at h1

theorem strLtL_connex : ∀ {a b : List Char}, a ≠ b → strLtL a b = true ∨ strLtL b a = true
  | [], [], h => absurd rfl h
  | [], _ :: _, _ => by simp [strLtL]
  | _ :: _, [], _ => by simp [strLtL]
  | a :: as, b :: bs, h => by
    simp only [strLtL]
    rcases Nat.lt_trichotomy a.toNat b.toNat with hab | hab | hab
    · simp [hab]
    · have hchar : a = b := charNat_inj hab
      subst hchar
      have : as ≠ bs := fun hcon => h (by rw [hcon])
      rcases strLtL_connex this with h' | h' <;> simp [h', Nat.lt_irrefl]
    · simp [hab, Nat.not_lt.mpr (Nat.le_of_lt hab)]

theorem strLt_asymm {a b : String} (h : strLt a b = true) : strLt b a = false :=
  strLtL_asymm h

theorem strLt_trans {a b c : String} (h1 : strLt a b = true) (h2 : strLt b c = true) :
    strLt a c = true :=
  strLtL_trans h1 h2

theorem strLt_connex {a b : String} (h : a ≠ b) : strLt a b = true ∨ strLt b a = true :=
  strLtL_connex (fun hcon => h (String.ext_iff.mpr hcon))

theorem strLt_irrefl (a : String) : strLt a a = false := by
  cases h : strLt a a
  · rfl
  · have := @strLtL_asymm a.data a.data h
    rw [strLt] at h
    rw [this] at h
    cases h

/-- The order `sort.SliceStable` establishes, written positively. -/
theorem opLess_false_iff (a b : Operation) :
    opLess b a = false ↔
      (strLt a.author b.author = true ∨ (a.author = b.author ∧ a.seq ≤ b.seq)) := by
  unfold opLess
  by_cases hauth : b.author = a.author
  · rw [if_neg (fun hn => hn hauth)]
    constructor
    · intro h
      refine Or.inr ⟨hauth.symm, ?_⟩
      simp only [decide_eq_false_iff_not, Nat.not_lt] at h
      exact h
    · rintro (h | ⟨-, h⟩)
      · rw [hauth] at h
        rw [strLt_irrefl] at h
        cases h
      · simp only [decide_eq_false_iff_not, Nat.not_lt]
        exact h
  · rw [if_pos hauth]
    constructor
    · intro h
      left
      rcases strLt_connex (fun e => hauth e.symm) with h' | h'
      · exact h'
      · rw [h'] at h
        cases h
    · rintro (h | ⟨heq, -⟩)
      · exact strLt_asymm h
      · exact absurd heq.symm hauth

theorem opLess_le_trans {a b c : Operation} (h1 : opLess b a = false) (h2 : opLess c b = false) :
    opLess c a = false := by
  rw [opLess_false_iff] at h1 h2 ⊢
  rcases h1 with h1 | ⟨e1, l1⟩
  · rcases h2 with h2 | ⟨e2, l2⟩
    · exact Or.inl (strLt_trans h1 h2)
    · exact Or.inl (e2 ▸ h1)
  · rcases h2 with h2 | ⟨e2, l2⟩
    · exact Or.inl (e1 ▸ h2)
    · exact Or.inr ⟨e1.trans e2, Nat.le_trans l1 l2⟩

theorem opLess_not_both {a b : Operation} : opLess a b = true → opLess b a = true → False := by
  intro h1 h2
  unfold opLess at h1 h2
  by_cases hauth : a.author = b.author
  · rw [if_neg (fun hn => hn hauth)] at h1
    rw [if_neg (fun hn => hn hauth.symm)] at h2
    simp only [decide_eq_true_eq] at h1 h2
    omega
  · rw [if_pos hauth] at h1
    rw [if_pos (fun e => hauth e.symm)] at h2
    rw [strLt_asymm h1] at h2
    cases h2


/-! ## Association-map lemmas -/

section MapLemmas

variable {κ ν : Type} [DecidableEq κ]

theorem lookupA_setA_self (m : List (κ × ν)) (k : κ) (v : ν) :
    lookupA (setA m k v) k = some v := by
  induction m with
  | nil => simp [setA, lookupA]
  | cons e m ih =>
    unfold setA
    by_cases h : e.1 = k
    · rw [if_pos h]
      simp [lookupA]
    · rw [if_neg h]
      unfold lookupA
      rw [if_neg h]
      exact ih

theorem lookupA_setA_ne (m : List (κ × ν)) {k k' : κ} (v : ν) (h : k' ≠ k) :
    lookupA (setA m k v) k' = lookupA m k' := by
  induction m with
  | nil =>
    simp only [setA, lookupA]
    rw [if_neg (fun e => h e.symm)]
  | cons e m ih =>
    unfold setA
    by_cases he : e.1 = k
    · rw [if_pos he]
      unfold lookupA
      rw [if_neg (fun e => h e.symm), if_neg (fun hcon => h (hcon.symm.trans he))]
    · rw [if_neg he]
      unfold lookupA
      by_cases he' : e.1 = k'
      · rw [if_pos he', if_pos he']
      · rw [if_neg he', if_neg he']
        exact ih

end MapLemmas

theorem idKnown_iff (ids : List IdStr) (i : IdStr) : idKnown ids i = true ↔ i ∈ ids := by
  unfold idKnown
  rw [List.any_eq_true]
  constructor
  · rintro ⟨j, hj, he⟩
    rw [decide_eq_true_eq] at he
    exact he ▸ hj
  · intro h
    exact ⟨i, h, by simp⟩

/-! ## `maxSeqOps` and `seqFinset` lemmas -/

theorem maxSeqOps_base (ops : List Operation) (a : String) (b : Nat) :
    ops.foldr (fun o acc => if o.author = a then max o.seq acc else acc) b =
      max (maxSeqOps ops a) b := by
  induction ops with
  | nil => simp [maxSeqOps]
  | cons o ops ih =>
    unfold maxSeqOps at *
    by_cases h : o.author = a
    · simp only [List.foldr_cons, h, if_true, ih]
      rw [← max_assoc]
    · simp only [List.foldr_cons, h, if_false, ih]

theorem maxSeqOps_append (ops : List Operation) (op : Operation) (a : String) :
    maxSeqOps (ops ++ [op]) a =
      if op.author = a then max (maxSeqOps ops a) op.seq else maxSeqOps ops a := by
  show (ops ++ [op]).foldr _ 0 = _
  rw [List.foldr_append, List.foldr_cons, List.foldr_nil]
  by_cases h : op.author = a
  · have h1 : (if op.author = a then max op.seq 0 else 0) = op.seq := by
      rw [if_pos h, Nat.max_zero]
    rw [h1, maxSeqOps_base, if_pos h, Nat.max_comm]
  · have h1 : (if op.author = a then max op.seq 0 else 0) = 0 := by
      rw [if_neg h]
    rw [h1, maxSeqOps_base, if_neg h, Nat.max_zero]

theorem le_maxSeqOps {ops : List Operation} {o : Operation} (h : o ∈ ops) {a : String}
    (ha : o.author = a) : o.seq ≤ maxSeqOps ops a := by
  induction ops with
  | nil => cases h
  | cons o' ops ih =>
    show o.seq ≤ (o' :: ops).foldr _ 0
    rw [List.foldr_cons]
    rcases List.mem_cons.mp h with he | hm
    · subst he
      rw [if_pos ha, maxSeqOps_base]
      exact le_max_left _ _
    · have hle := ih hm
      by_cases h' : o'.author = a
      · rw [if_pos h', maxSeqOps_base]
        exact hle.trans ((le_max_left _ _).trans (le_max_right _ _))
      · rw [if_neg h']
        exact hle

theorem maxSeqOps_mem {ops : List Operation} {a : String} (h : maxSeqOps ops a ≠ 0) :
    ∃ o ∈ ops, o.author = a ∧ o.seq = maxSeqOps ops a := by
  induction ops with
  | nil => simp [maxSeqOps] at h
  | cons o ops ih =>
    have hcons : maxSeqOps (o :: ops) a =
        if o.author = a then max o.seq (maxSeqOps ops a) else maxSeqOps ops a := rfl
    rw [hcons] at h ⊢
    by_cases ho : o.author = a
    · rw [if_pos ho] at h ⊢
      rcases Nat.le_total (maxSeqOps ops a) o.seq with hcmp | hcmp
      · exact ⟨o, by simp, ho, (Nat.max_eq_left hcmp).symm⟩
      · rw [Nat.max_eq_right hcmp] at h ⊢
        obtain ⟨o', ho', ha', hs'⟩ := ih h
        exact ⟨o', List.mem_cons_of_mem _ ho', ha', hs'⟩
    · rw [if_neg ho] at h ⊢
      obtain ⟨o', ho', ha', hs'⟩ := ih h
      exact ⟨o', List.mem_cons_of_mem _ ho', ha', hs'⟩

theorem mem_seqFinset {ops : List Operation} {a : String} {n : Nat} :
    n ∈ seqFinset ops a ↔ ∃ o ∈ ops, o.author = a ∧ o.seq = n := by
  unfold seqFinset
  rw [List.mem_toFinset, List.mem_map]
  constructor
  · rintro ⟨o, ho, hs⟩
    rw [List.mem_filter, decide_eq_true_eq] at ho
    exact ⟨o, ho.1, ho.2, hs⟩
  · rintro ⟨o, ho, ha, hs⟩
    exact ⟨o, List.mem_filter.mpr ⟨ho, by simp [ha]⟩, hs⟩

theorem seqFinset_append (ops : List Operation) (op : Operation) (a : String) :
    seqFinset (ops ++ [op]) a =
      if op.author = a then insert op.seq (seqFinset ops a) else seqFinset ops a := by
  unfold seqFinset
  rw [List.filter_append]
  by_cases h : op.author = a
  · simp only [List.filter_cons, decide_eq_true_eq, h, if_true, List.filter_nil,
      List.map_append, List.toFinset_append, List.map_cons, List.map_nil]
    rw [Finset.union_comm]
    simp [Finset.insert_eq]
  · simp [List.filter_cons, h]

/-! ## Characterizing `verifyOperation` and `AppendLocalOp` -/

theorem normPayload_idem (p : Payload) : normPayload (normPayload p) = normPayload p := by
  cases p <;> rfl

theorem trimSpace_nodeID_ne (k : Nat) : trimSpace (nodeIDFromPublicKey k) ≠ "" := by
  intro h
  have := trimSpace_eq_empty_iff.mp h 'n' (by simp [nodeIDFromPublicKey])
  simp [isSpaceGo] at this

theorem parses_fmtTime (t : Nat) : parsesRFC3339Nano (fmtTime t) = true := by
  simp [parsesRFC3339Nano, fmtTime]

/-- The exact acceptance condition of `verifyOperation`. -/
theorem verifyOperation_ok_iff (op : Operation) :
    verifyOperation op = .ok () ↔
      (op.id.isBlank = false ∧ trimSpace op.type ≠ "" ∧ trimSpace op.author ≠ "" ∧
        op.seq ≠ 0 ∧ parsesRFC3339Nano op.timestamp = true ∧
        ∃ (k : Nat) (sg : Signable),
          op.publicKey = .enc k ∧ op.author = nodeIDFromPublicKey k ∧
          op.signature = .enc k sg ∧ canonicalOperationBytes op = .ok sg ∧
          op.id = computeOperationID sg k sg) := by
  unfold verifyOperation
  constructor
  · intro h
    by_cases h1 : op.id.isBlank = true
    · rw [if_pos h1] at h
      exact absurd h (by simp)
    rw [if_neg h1] at h
    by_cases h2 : trimSpace op.type = ""
    · rw [if_pos h2] at h
      exact absurd h (by simp)
    rw [if_neg h2] at h
    by_cases h3 : trimSpace op.author = ""
    · rw [if_pos h3] at h
      exact absurd h (by simp)
    rw [if_neg h3] at h
    by_cases h4 : op.seq = 0
    · rw [if_pos h4] at h
      exact absurd h (by simp)
    rw [if_neg h4] at h
    by_cases h5 : parsesRFC3339Nano op.timestamp = true
    · rw [if_neg (by simp [h5])] at h
      cases hpk : op.publicKey with
      | raw s =>
        rw [hpk] at h
        simp only [decodePubKey] at h
        exact absurd h (by simp)
      | enc k =>
        rw [hpk] at h
        simp only [decodePubKey] at h
        by_cases h6 : op.author = nodeIDFromPublicKey k
        · rw [if_neg (not_not_intro h6)] at h
          cases hsg : op.signature with
          | raw s =>
            rw [hsg] at h
            simp only [decodeSig] at h
            exact absurd h (by simp)
          | enc k' m =>
            rw [hsg] at h
            simp only [decodeSig] at h
            cases hc : canonicalOperationBytes op with
            | error e =>
              rw [hc] at h
              exact absurd h (by simp)
            | ok sg =>
              rw [hc] at h
              dsimp only at h
              by_cases h7 : k' = k ∧ m = sg
              · rw [if_neg (not_not_intro h7)] at h
                by_cases h8 : op.id = computeOperationID sg k' m
                · refine ⟨by simpa using h1, h2, h3, h4, h5, k, sg, rfl, h6, ?_, rfl, ?_⟩
                  · rw [h7.1, h7.2]
                  · rw [h8, h7.1, h7.2]
                · rw [if_pos h8] at h
                  exact absurd h (by simp)
              · rw [if_pos h7] at h
                exact absurd h (by simp)
        · rw [if_pos h6] at h
          exact absurd h (by simp)
    · rw [if_pos h5] at h
      exact absurd h (by simp)
  · rintro ⟨h1, h2, h3, h4, h5, k, sg, hpk, hauth, hsig, hc, hid⟩
    rw [if_neg (by rw [h1]; simp), if_neg h2, if_neg h3, if_neg h4,
      if_neg (by rw [h5]; simp)]
    rw [hpk]
    dsimp only [decodePubKey]
    rw [if_neg (not_not_intro hauth)]
    rw [hsig]
    dsimp only [decodeSig]
    rw [hc]
    dsimp only
    rw [if_neg (not_not_intro ⟨rfl, rfl⟩)]
    rw [if_neg (not_not_intro hid)]

/-- Inversion of a successful `AppendLocalOp`: the exact shape of the
produced operation. -/
theorem AppendLocalOp_ok {s : Store} {ty : String} {p : Payload} {now : Nat}
    {op : Operation} {s' : Store} (h : AppendLocalOp s ty p now = .ok (op, s')) :
    ∃ sg : Signable,
      trimSpace ty ≠ "" ∧ (normPayload p).isValidJson = true ∧
      sg = { type := trimSpace ty, author := s.nodeID,
             seq := lookupD s.seqByAuthor s.nodeID + 1,
             timestamp := fmtTime now, payload := normPayload p,
             publicKey := .enc s.key } ∧
      op = { id := IdStr.hash sg s.key sg, type := trimSpace ty, author := s.nodeID,
             seq := lookupD s.seqByAuthor s.nodeID + 1, timestamp := fmtTime now,
             payload := normPayload p, publicKey := .enc s.key,
             signature := SigStr.enc s.key sg } ∧
      addOperationLocked s op = (.ok true, s') := by
  unfold AppendLocalOp at h
  by_cases h1 : trimSpace ty = ""
  · rw [if_pos h1] at h
    exact absurd h (by simp)
  rw [if_neg h1] at h
  by_cases h2 : (normPayload p).isValidJson = true
  · rw [if_neg (by rw [h2]; simp)] at h
    dsimp only at h
    rw [show signOperation
        { id := IdStr.raw "", type := trimSpace ty, author := s.nodeID,
          seq := lookupD s.seqByAuthor s.nodeID + 1, timestamp := fmtTime now,
          payload := normPayload p, publicKey := KeyStr.enc s.key,
          signature := SigStr.raw "" } s.key =
        .ok (SigStr.enc s.key
              { type := trimSpace ty, author := s.nodeID,
                seq := lookupD s.seqByAuthor s.nodeID + 1,
                timestamp := fmtTime now, payload := normPayload p,
                publicKey := KeyStr.enc s.key },
             IdStr.hash
              { type := trimSpace ty, author := s.nodeID,
                seq := lookupD s.seqByAuthor s.nodeID + 1,
                timestamp := fmtTime now, payload := normPayload p,
                publicKey := KeyStr.enc s.key } s.key
              { type := trimSpace ty, author := s.nodeID,
                seq := lookupD s.seqByAuthor s.nodeID + 1,
                timestamp := fmtTime now, payload := normPayload p,
                publicKey := KeyStr.enc s.key }) from by
      unfold signOperation canonicalOperationBytes
      dsimp only
      rw [normPayload_idem, if_pos h2]
      rfl] at h
    dsimp only at h
    rcases hadd : addOperationLocked s
        { id := IdStr.hash
            { type := trimSpace ty, author := s.nodeID,
              seq := lookupD s.seqByAuthor s.nodeID + 1,
              timestamp := fmtTime now, payload := normPayload p,
              publicKey := KeyStr.enc s.key } s.key
            { type := trimSpace ty, author := s.nodeID,
              seq := lookupD s.seqByAuthor s.nodeID + 1,
              timestamp := fmtTime now, payload := normPayload p,
              publicKey := KeyStr.enc s.key },
          type := trimSpace ty, author := s.nodeID,
          seq := lookupD s.seqByAuthor s.nodeID + 1, timestamp := fmtTime now,
          payload := normPayload p, publicKey := KeyStr.enc s.key,
          signature := SigStr.enc s.key
            { type := trimSpace ty, author := s.nodeID,
              seq := lookupD s.seqByAuthor s.nodeID + 1,
              timestamp := fmtTime now, payload := normPayload p,
              publicKey := KeyStr.enc s.key } } with ⟨r, s2⟩
    rw [hadd] at h
    cases r with
    | error e => exact absurd h (by simp)
    | ok added =>
      cases added with
      | false =>
        dsimp only at h
        exact absurd h (by simp)
      | true =>
        dsimp only at h
        rw [if_pos rfl] at h
        rw [Except.ok.injEq, Prod.mk.injEq] at h
        obtain ⟨hop, hs2⟩ := h
        subst hop
        subst hs2
        exact ⟨_, h1, h2, rfl, rfl, hadd⟩
  · rw [if_pos (by simpa using h2)] at h
    exact absurd h (by simp)

/-! ## Claim C1 -/

/-- C1 (amended): every operation returned by a successful
`AppendLocalOp` is accepted by `verifyOperation` unchanged; mutating any
one of `type`, `author`, `seq`, `timestamp`, `public_key`, `signature`
or `id` to a different value makes `verifyOperation` reject it; mutating
`payload` makes `verifyOperation` reject it whenever the new payload's
canonical form differs from the old one (the empty payload and `\x7b\x7d`
share their canonical form, so that one replacement still verifies — see
the counterexample). -/
theorem C1_sign_verify_roundtrip_tamper (s : Store) (ty : String) (p : Payload) (now : Nat)
    (op : Operation) (s' : Store) (h : AppendLocalOp s ty p now = .ok (op, s')) :
    verifyOperation op = .ok () ∧
    (∀ v, v ≠ op.type → verifyOperation { op with type := v } ≠ .ok ()) ∧
    (∀ v, v ≠ op.author → verifyOperation { op with author := v } ≠ .ok ()) ∧
    (∀ v, v ≠ op.seq → verifyOperation { op with seq := v } ≠ .ok ()) ∧
    (∀ v, v ≠ op.timestamp → verifyOperation { op with timestamp := v } ≠ .ok ()) ∧
    (∀ v, normPayload v ≠ normPayload op.payload →
      verifyOperation { op with payload := v } ≠ .ok ()) ∧
    (∀ v, v ≠ op.publicKey → verifyOperation { op with publicKey := v } ≠ .ok ()) ∧
    (∀ v, v ≠ op.signature → verifyOperation { op with signature := v } ≠ .ok ()) ∧
    (∀ v, v ≠ op.id → verifyOperation { op with id := v } ≠ .ok ()) := by
  obtain ⟨sg, hty, hval, hsgdef, hopdef, hadd⟩ := AppendLocalOp_ok h
  subst hsgdef
  subst hopdef
  refine ⟨?_, ?_, ?_, ?_, ?_, ?_, ?_, ?_, ?_⟩
  · -- acceptance
    rw [verifyOperation_ok_iff]
    refine ⟨rfl, trimSpace_trimSpace_ne hty, trimSpace_nodeID_ne s.key,
      Nat.succ_ne_zero _, parses_fmtTime now, s.key, _, rfl, rfl, rfl, ?_, rfl⟩
    unfold canonicalOperationBytes
    dsimp only
    rw [normPayload_idem, if_pos hval]
  · -- type mutation
    intro v hvne hv
    obtain ⟨-, -, -, -, -, k', sg', hpk', -, hsig', hc', -⟩ :=
      (verifyOperation_ok_iff _).mp hv
    dsimp only at hsig'
    injection hsig' with hk hsg2
    subst hk
    subst hsg2
    unfold canonicalOperationBytes at hc'
    dsimp only at hc'
    rw [normPayload_idem, if_pos hval] at hc'
    injection hc' with hs
    injection hs with h1 h2 h3 h4 h5 h6
    exact hvne h1
  · -- author mutation
    intro v hvne hv
    obtain ⟨-, -, -, -, -, k', sg', hpk', hauth', -, -, -⟩ :=
      (verifyOperation_ok_iff _).mp hv
    dsimp only at hpk' hauth'
    injection hpk' with hk
    subst hk
    exact hvne hauth'
  · -- seq mutation
    intro v hvne hv
    obtain ⟨-, -, -, -, -, k', sg', hpk', -, hsig', hc', -⟩ :=
      (verifyOperation_ok_iff _).mp hv
    dsimp only at hsig'
    injection hsig' with hk hsg2
    subst hk
    subst hsg2
    unfold canonicalOperationBytes at hc'
    dsimp only at hc'
    rw [normPayload_idem, if_pos hval] at hc'
    injection hc' with hs
    injection hs with h1 h2 h3 h4 h5 h6
    exact hvne h3
  · -- timestamp mutation
    intro v hvne hv
    obtain ⟨-, -, -, -, -, k', sg', hpk', -, hsig', hc', -⟩ :=
      (verifyOperation_ok_iff _).mp hv
    dsimp only at hsig'
    injection hsig' with hk hsg2
    subst hk
    subst hsg2
    unfold canonicalOperationBytes at hc'
    dsimp only at hc'
    rw [normPayload_idem, if_pos hval] at hc'
    injection hc' with hs
    injection hs with h1 h2 h3 h4 h5 h6
    exact hvne h4
  · -- payload mutation (to a different canonical form)
    intro v hvne hv
    obtain ⟨-, -, -, -, -, k', sg', hpk', -, hsig', hc', -⟩ :=
      (verifyOperation_ok_iff _).mp hv
    dsimp only at hsig'
    injection hsig' with hk hsg2
    subst hk
    subst hsg2
    unfold canonicalOperationBytes at hc'
    dsimp only at hc'
    by_cases hv2 : (normPayload v).isValidJson = true
    · rw [if_pos hv2] at hc'
      injection hc' with hs
      injection hs with h1 h2 h3 h4 h5 h6
      apply hvne
      show normPayload v = normPayload (normPayload p)
      rw [normPayload_idem]
      exact h5
    · rw [if_neg hv2] at hc'
      exact absurd hc' (by simp)
  · -- public-key mutation
    intro v hvne hv
    obtain ⟨-, -, -, -, -, k', sg', hpk', -, hsig', -, -⟩ :=
      (verifyOperation_ok_iff _).mp hv
    dsimp only at hpk' hsig'
    injection hsig' with hk hsg2
    subst hk
    exact hvne hpk'
  · -- signature mutation
    intro v hvne hv
    obtain ⟨-, -, -, -, -, k', sg', hpk', -, hsig', hc', -⟩ :=
      (verifyOperation_ok_iff _).mp hv
    dsimp only at hpk' hsig'
    injection hpk' with hk
    subst hk
    unfold canonicalOperationBytes at hc'
    dsimp only at hc'
    rw [normPayload_idem, if_pos hval] at hc'
    injection hc' with hs
    subst hs
    exact hvne hsig'
  · -- id mutation
    intro v hvne hv
    obtain ⟨-, -, -, -, -, k', sg', hpk', -, hsig', hc', hid'⟩ :=
      (verifyOperation_ok_iff _).mp hv
    dsimp only at hsig' hid'
    injection hsig' with hk hsg2
    subst hk
    subst hsg2
    exact hvne hid'

/-! ## `addOperationLocked`: case analysis and invariant preservation -/

theorem addOperationLocked_reject {s : Store} {op : Operation} {r : Except String Bool}
    {s' : Store} (h : addOperationLocked s op = (r, s')) (hr : r ≠ .ok true) : s' = s := by
  unfold addOperationLocked at h
  cases hv : verifyOperation op with
  | error e =>
    rw [hv] at h
    rw [Prod.mk.injEq] at h
    exact h.2.symm
  | ok u =>
    rw [hv] at h
    dsimp only at h
    by_cases hid : idKnown s.opIDs op.id = true
    · rw [if_pos hid] at h
      rw [Prod.mk.injEq] at h
      exact h.2.symm
    · rw [if_neg hid] at h
      cases hl : lookupA s.authorSeqIndex (op.author, op.seq) with
      | some existingID =>
        rw [hl] at h
        dsimp only at h
        by_cases hne : existingID = op.id
        · rw [if_neg (not_not_intro hne)] at h
          rw [Prod.mk.injEq] at h
          exact absurd h.1.symm hr
        · rw [if_pos hne] at h
          rw [Prod.mk.injEq] at h
          exact h.2.symm
      | none =>
        rw [hl] at h
        dsimp only at h
        rw [Prod.mk.injEq] at h
        exact absurd h.1.symm hr

theorem addOperationLocked_accept {s : Store} {op : Operation} {s' : Store}
    (h : addOperationLocked s op = (.ok true, s')) :
    verifyOperation op = .ok () ∧ idKnown s.opIDs op.id = false ∧
    (lookupA s.authorSeqIndex (op.author, op.seq) = none ∨
      lookupA s.authorSeqIndex (op.author, op.seq) = some op.id) ∧
    s' = insertOpLocked s op := by
  unfold addOperationLocked at h
  cases hv : verifyOperation op with
  | error e =>
    rw [hv] at h
    rw [Prod.mk.injEq] at h
    exact absurd h.1 (by simp)
  | ok u =>
    rw [hv] at h
    dsimp only at h
    by_cases hid : idKnown s.opIDs op.id = true
    · rw [if_pos hid] at h
      rw [Prod.mk.injEq] at h
      exact absurd h.1 (by simp)
    · rw [if_neg hid] at h
      cases hl : lookupA s.authorSeqIndex (op.author, op.seq) with
      | some existingID =>
        rw [hl] at h
        dsimp only at h
        by_cases hne : existingID = op.id
        · rw [if_neg (not_not_intro hne)] at h
          rw [Prod.mk.injEq] at h
          exact ⟨by cases u; rfl, Bool.not_eq_true _ ▸ hid,
            Or.inr (by rw [hne]), h.2.symm⟩
        · rw [if_pos hne] at h
          rw [Prod.mk.injEq] at h
          exact absurd h.1 (by simp)
      | none =>
        rw [hl] at h
        dsimp only at h
        rw [Prod.mk.injEq] at h
        exact ⟨by cases u; rfl, Bool.not_eq_true _ ▸ hid, Or.inl rfl, h.2.symm⟩

theorem insertOpLocked_wf {s : Store} {op : Operation} (hwf : StoreWF s)
    (hv : verifyOperation op = .ok ()) (hid : idKnown s.opIDs op.id = false)
    (hl : lookupA s.authorSeqIndex (op.author, op.seq) = none ∨
      lookupA s.authorSeqIndex (op.author, op.seq) = some op.id) :
    StoreWF (insertOpLocked s op) := by
  have hseq : op.seq ≠ 0 := ((verifyOperation_ok_iff op).mp hv).2.2.2.1
  constructor
  · -- ids
    intro i
    show idKnown (op.id :: s.opIDs) i = true ↔ _
    unfold idKnown
    rw [List.any_cons]
    constructor
    · intro h
      rcases Bool.or_eq_true_iff.mp h with h | h
      · rw [decide_eq_true_eq] at h
        exact ⟨op, by simp [insertOpLocked], h⟩
      · obtain ⟨o, ho, hoi⟩ := (hwf.ids i).mp h
        exact ⟨o, by simp [insertOpLocked, ho], hoi⟩
    · rintro ⟨o, ho, hoi⟩
      rw [show (insertOpLocked s op).ops = s.ops ++ [op] from rfl] at ho
      rcases List.mem_append.mp ho with ho | ho
      · exact Bool.or_eq_true_iff.mpr (Or.inr ((hwf.ids i).mpr ⟨o, ho, hoi⟩))
      · rw [List.mem_singleton] at ho
        subst ho
        exact Bool.or_eq_true_iff.mpr (Or.inl (by rw [decide_eq_true_eq, hoi]))
  · -- authorSeqIndex
    intro a n i
    show lookupA (setA s.authorSeqIndex (op.author, op.seq) op.id) (a, n) = some i ↔ _
    by_cases hk : (a, n) = (op.author, op.seq)
    · rw [hk, lookupA_setA_self]
      constructor
      · intro h
        rw [Option.some.injEq] at h
        exact ⟨op, by simp [insertOpLocked], (Prod.mk.injEq _ _ _ _ ▸ hk).1.symm ▸ rfl,
          (Prod.mk.injEq _ _ _ _ ▸ hk).2.symm ▸ rfl, h⟩
      · rintro ⟨o, ho, hoa, hon, hoi⟩
        rw [show (insertOpLocked s op).ops = s.ops ++ [op] from rfl] at ho
        rw [Option.some.injEq]
        obtain ⟨hka, hkn⟩ := Prod.mk.injEq _ _ _ _ ▸ hk
        rcases List.mem_append.mp ho with ho | ho
        · have := (hwf.idx a n i).mpr ⟨o, ho, hoa, hon, hoi⟩
          rw [hk] at this
          rcases hl with hl | hl
          · rw [hl] at this
            cases this
          · rw [hl] at this
            rw [Option.some.injEq] at this
            exact this
        · rw [List.mem_singleton] at ho
          subst ho
          exact hoi
    · rw [lookupA_setA_ne _ _ hk]
      rw [hwf.idx a n i]
      constructor
      · rintro ⟨o, ho, hoa, hon, hoi⟩
        exact ⟨o, by simp [insertOpLocked, ho], hoa, hon, hoi⟩
      · rintro ⟨o, ho, hoa, hon, hoi⟩
        rw [show (insertOpLocked s op).ops = s.ops ++ [op] from rfl] at ho
        rcases List.mem_append.mp ho with ho | ho
        · exact ⟨o, ho, hoa, hon, hoi⟩
        · rw [List.mem_singleton] at ho
          subst ho
          exact (hk (by rw [Prod.mk.injEq]; exact ⟨hoa.symm, hon.symm⟩)).elim
  · -- seqByAuthor values
    intro a
    show lookupD (if lookupD s.seqByAuthor op.author < op.seq then
        setA s.seqByAuthor op.author op.seq else s.seqByAuthor) a =
      maxSeqOps (s.ops ++ [op]) a
    rw [maxSeqOps_append]
    by_cases ha : op.author = a
    · subst ha
      rw [if_pos rfl]
      by_cases hcmp : lookupD s.seqByAuthor op.author < op.seq
      · rw [if_pos hcmp]
        unfold lookupD
        rw [lookupA_setA_self, Option.getD_some]
        rw [hwf.maxa op.author] at hcmp
        exact (Nat.max_eq_right (Nat.le_of_lt hcmp)).symm
      · rw [if_neg hcmp]
        rw [hwf.maxa op.author] at hcmp ⊢
        exact (Nat.max_eq_left (Nat.not_lt.mp hcmp)).symm
    · rw [if_neg ha]
      by_cases hcmp : lookupD s.seqByAuthor op.author < op.seq
      · rw [if_pos hcmp]
        unfold lookupD
        rw [lookupA_setA_ne _ _ (fun e => ha e.symm)]
        exact hwf.maxa a
      · rw [if_neg hcmp]
        exact hwf.maxa a
  · -- seqByAuthor domain
    intro a
    show (lookupA (if lookupD s.seqByAuthor op.author < op.seq then
        setA s.seqByAuthor op.author op.seq else s.seqByAuthor) a).isSome = true ↔
      ∃ o ∈ s.ops ++ [op], o.author = a
    constructor
    · intro h
      by_cases ha : op.author = a
      · exact ⟨op, by simp, ha⟩
      · have hlk : (lookupA s.seqByAuthor a).isSome = true := by
          by_cases hcmp : lookupD s.seqByAuthor op.author < op.seq
          · rw [if_pos hcmp, lookupA_setA_ne _ _ (fun e => ha e.symm)] at h
            exact h
          · rw [if_neg hcmp] at h
            exact h
        obtain ⟨o, ho, hoa⟩ := (hwf.dom a).mp hlk
        exact ⟨o, by simp [ho], hoa⟩
    · rintro ⟨o, ho, hoa⟩
      by_cases hcmp : lookupD s.seqByAuthor op.author < op.seq
      · rw [if_pos hcmp]
        by_cases ha : op.author = a
        · subst ha
          rw [lookupA_setA_self]
          rfl
        · rw [lookupA_setA_ne _ _ (fun e => ha e.symm)]
          rcases List.mem_append.mp ho with ho | ho
          · exact (hwf.dom a).mpr ⟨o, ho, hoa⟩
          · rw [List.mem_singleton] at ho
            subst ho
            exact absurd hoa ha
      · rw [if_neg hcmp]
        rcases List.mem_append.mp ho with ho | ho
        · exact (hwf.dom a).mpr ⟨o, ho, hoa⟩
        · rw [List.mem_singleton] at ho
          subst ho
          rw [hoa] at hcmp
          have h1 : 1 ≤ lookupD s.seqByAuthor a := by
            unfold lookupD at hcmp ⊢
            omega
          by_contra hno
          have hnone : lookupA s.seqByAuthor a = none :=
            Option.not_isSome_iff_eq_none.mp (by simpa using hno)
          unfold lookupD at h1
          rw [hnone] at h1
          simp at h1
  · -- all stored operations verify
    intro o ho
    rw [show (insertOpLocked s op).ops = s.ops ++ [op] from rfl] at ho
    rcases List.mem_append.mp ho with ho | ho
    · exact hwf.vrf o ho
    · rw [List.mem_singleton] at ho
      subst ho
      exact hv

theorem initStore_wf (k : Nat) : StoreWF (initStore k) := by
  constructor
  · intro i
    simp [initStore, idKnown]
  · intro a n i
    simp [initStore, lookupA]
  · intro a
    rfl
  · intro a
    simp [initStore, lookupA, lookupD]
  · intro o ho
    simp [initStore] at ho

/-- Every reachable store has consistent derived indices. -/
theorem reachable_wf {s : Store} (h : Reachable s) : StoreWF s := by
  induction h with
  | init k => exact initStore_wf k
  | appendLocal hr hstep ih =>
    obtain ⟨sg, -, -, -, -, hadd⟩ := AppendLocalOp_ok hstep
    obtain ⟨hv, hid, hl, hs'⟩ := addOperationLocked_accept hadd
    rw [hs']
    exact insertOpLocked_wf ih hv hid hl
  | addRemote hr hstep ih =>
    rename_i s op r s'
    by_cases hacc : r = Except.ok true
    · subst hacc
      obtain ⟨hv, hid, hl, hs'⟩ := addOperationLocked_accept hstep
      rw [hs']
      exact insertOpLocked_wf ih hv hid hl
    · rw [addOperationLocked_reject hstep hacc]
      exact ih

theorem maxSeqOps_eq_zero_of_absent {ops : List Operation} {a : String}
    (h : ¬∃ o ∈ ops, o.author = a) : maxSeqOps ops a = 0 := by
  by_contra hne
  obtain ⟨o, ho, hoa, -⟩ := maxSeqOps_mem hne
  exact h ⟨o, ho, hoa⟩

theorem insertOpLocked_dense {s : Store} {op : Operation} (hwf : StoreWF s)
    (hdense : DenseLog s) (hv : verifyOperation op = .ok ())
    (hid : idKnown s.opIDs op.id = false)
    (hl : lookupA s.authorSeqIndex (op.author, op.seq) = none ∨
      lookupA s.authorSeqIndex (op.author, op.seq) = some op.id)
    (hord : op.seq ≤ maxSeqOps s.ops op.author + 1) :
    DenseLog (insertOpLocked s op) := by
  have hseq1 : 1 ≤ op.seq := by
    have := ((verifyOperation_ok_iff op).mp hv).2.2.2.1
    omega
  have hfresh : ¬∃ o ∈ s.ops, o.author = op.author ∧ o.seq = op.seq := by
    rintro ⟨o, ho, hoa, hon⟩
    rcases hl with hl | hl
    · have := (hwf.idx op.author op.seq o.id).mpr ⟨o, ho, hoa, hon, rfl⟩
      rw [hl] at this
      cases this
    · obtain ⟨o', ho', -, -, hoid'⟩ := (hwf.idx op.author op.seq op.id).mp hl
      have := (hwf.ids op.id).mpr ⟨o', ho', hoid'⟩
      rw [hid] at this
      cases this
  have hkey : op.seq = maxSeqOps s.ops op.author + 1 := by
    rcases Nat.lt_or_ge (maxSeqOps s.ops op.author) op.seq with hlt | hge
    · omega
    · exfalso
      by_cases hpres : ∃ o ∈ s.ops, o.author = op.author
      · obtain ⟨o0, ho0, hoa0⟩ := hpres
        have hd := hdense o0 ho0
        rw [hoa0] at hd
        have : op.seq ∈ seqFinset s.ops op.author := by
          rw [hd, Finset.mem_Icc]
          exact ⟨hseq1, hge⟩
        obtain ⟨o1, ho1, hoa1, hon1⟩ := mem_seqFinset.mp this
        exact hfresh ⟨o1, ho1, hoa1, hon1⟩
      · have := maxSeqOps_eq_zero_of_absent hpres
        omega
  intro o ho
  rw [show (insertOpLocked s op).ops = s.ops ++ [op] from rfl] at ho ⊢
  rw [seqFinset_append, maxSeqOps_append]
  by_cases hA : op.author = o.author
  · rw [if_pos hA, if_pos hA]
    rw [← hA] at *
    rw [hkey]
    rw [Nat.max_eq_right (by omega : maxSeqOps s.ops op.author ≤ maxSeqOps s.ops op.author + 1)]
    rw [← Nat.Icc_insert_succ_right
      (by omega : (1 : Nat) ≤ maxSeqOps s.ops op.author + 1)]
    congr 1
    by_cases hpres : ∃ o' ∈ s.ops, o'.author = op.author
    · obtain ⟨o0, ho0, hoa0⟩ := hpres
      have hd := hdense o0 ho0
      rw [hoa0] at hd
      exact hd
    · have hz := maxSeqOps_eq_zero_of_absent hpres
      rw [hz]
      rw [show Finset.Icc 1 0 = (∅ : Finset Nat) from rfl]
      unfold seqFinset
      rw [List.filter_eq_nil_iff.mpr ?_]
      · rfl
      · intro o' ho'
        rw [decide_eq_true_eq]
        intro hoa'
        exact hpres ⟨o', ho', hoa'⟩
  · rw [if_neg hA, if_neg hA]
    rcases List.mem_append.mp ho with ho | ho
    · exact hdense o ho
    · rw [List.mem_singleton] at ho
      subst ho
      exact absurd rfl hA

/-- Every store reachable with in-order remote delivery is well formed
and dense. -/
theorem reachableInOrder_wf_dense {s : Store} (h : ReachableInOrder s) :
    StoreWF s ∧ DenseLog s := by
  induction h with
  | init k =>
    refine ⟨initStore_wf k, ?_⟩
    intro o ho
    simp [initStore] at ho
  | appendLocal hr hstep ih =>
    obtain ⟨sg, -, -, -, hop, hadd⟩ := AppendLocalOp_ok hstep
    obtain ⟨hv, hid, hl, hs'⟩ := addOperationLocked_accept hadd
    rename_i s opTy p now op s'
    have hord : op.seq ≤ maxSeqOps s.ops op.author + 1 := by
      have h1 : op.author = s.nodeID := by rw [hop]
      have h2 : op.seq = lookupD s.seqByAuthor s.nodeID + 1 := by rw [hop]
      rw [h1, h2, ih.1.maxa s.nodeID]
    rw [hs']
    exact ⟨insertOpLocked_wf ih.1 hv hid hl,
      insertOpLocked_dense ih.1 ih.2 hv hid hl hord⟩
  | addRemote hr hord hstep ih =>
    rename_i s op r s'
    by_cases hacc : r = Except.ok true
    · subst hacc
      obtain ⟨hv, hid, hl, hs'⟩ := addOperationLocked_accept hstep
      rw [hs']
      exact ⟨insertOpLocked_wf ih.1 hv hid hl,
        insertOpLocked_dense ih.1 ih.2 hv hid hl hord⟩
    · rw [addOperationLocked_reject hstep hacc]
      exact ih

/-- C1 counterexample: the claim "mutating any one of the fields …
payload … causes verifyOperation to reject it" fails at a concrete
operation: replacing the payload `\x7b\x7d` of a locally appended
operation by the empty payload changes the field but still verifies,
because verification normalizes the empty payload back to `\x7b\x7d`. -/
theorem C1_counterexample :
    AppendLocalOp (initStore 0) "t" Payload.empty 0 = .ok (c1op, c1store) ∧
    Payload.empty ≠ c1op.payload ∧
    verifyOperation { c1op with payload := Payload.empty } = .ok () := by
  refine ⟨by decide, by decide, by decide⟩

/-- C1 witness: the amended claim at a concrete append. -/
theorem C1_witness :
    AppendLocalOp (initStore 0) "t" Payload.empty 0 = .ok (c1op, c1store) ∧
    verifyOperation c1op = .ok () := by
  have h : AppendLocalOp (initStore 0) "t" Payload.empty 0 = .ok (c1op, c1store) := by decide
  exact ⟨h, (C1_sign_verify_roundtrip_tamper _ _ _ _ _ _ h).1⟩

/-! ## Claim C2 -/

theorem canonical_fields {op : Operation} {sg : Signable}
    (h : canonicalOperationBytes op = .ok sg) :
    sg.author = op.author ∧ sg.seq = op.seq := by
  unfold canonicalOperationBytes at h
  dsimp only at h
  by_cases hv : (normPayload op.payload).isValidJson = true
  · rw [if_pos hv] at h
    injection h with h
    rw [← h]
    exact ⟨rfl, rfl⟩
  · rw [if_neg hv] at h
    exact absurd h (by simp)

/-- C2 (amended): `AddRemoteOp` checks verification first — an operation
failing the signature/identity invariants returns that verification
error whether or not its id or (author, seq) is already known; an
operation passing verification whose id is already in the log returns
`(false, nil)`; and one passing verification whose (author, seq) pair is
in the log under a different id returns the conflict error. -/
theorem C2_duplicate_conflict_verification (s : Store) (op : Operation) :
    (∀ e, verifyOperation op = .error e → AddRemoteOp s op = (.error e, s)) ∧
    (Reachable s → verifyOperation op = .ok () → (∃ o ∈ s.ops, o.id = op.id) →
      AddRemoteOp s op = (.ok false, s)) ∧
    (Reachable s → verifyOperation op = .ok () →
      (∃ o ∈ s.ops, o.author = op.author ∧ o.seq = op.seq ∧ o.id ≠ op.id) →
      AddRemoteOp s op = (.error (conflictMsg op.author op.seq), s)) := by
  refine ⟨?_, ?_, ?_⟩
  · intro e he
    show addOperationLocked s op = _
    unfold addOperationLocked
    rw [he]
  · intro hr hv hdup
    have hwf := reachable_wf hr
    have hk : idKnown s.opIDs op.id = true := (hwf.ids op.id).mpr hdup
    show addOperationLocked s op = _
    unfold addOperationLocked
    rw [hv]
    dsimp only
    rw [if_pos hk]
  · intro hr hv hconf
    have hwf := reachable_wf hr
    obtain ⟨o, ho, hoa, hon, hne⟩ := hconf
    have hlook : lookupA s.authorSeqIndex (op.author, op.seq) = some o.id :=
      (hwf.idx op.author op.seq o.id).mpr ⟨o, ho, hoa, hon, rfl⟩
    have hk : idKnown s.opIDs op.id = false := by
      by_contra hkk
      have hk1 : idKnown s.opIDs op.id = true := by
        cases h' : idKnown s.opIDs op.id
        · exact absurd h' hkk
        · rfl
      obtain ⟨o1, ho1, hoid1⟩ := (hwf.ids op.id).mp hk1
      -- both o1 and op verify and share an id, hence share canonical bytes
      obtain ⟨-, -, -, -, -, k, sg, -, -, -, hc, hid⟩ :=
        (verifyOperation_ok_iff op).mp hv
      obtain ⟨-, -, -, -, -, k1, sg1, -, -, -, hc1, hid1⟩ :=
        (verifyOperation_ok_iff o1).mp (hwf.vrf o1 ho1)
      rw [hoid1, hid] at hid1
      injection hid1 with e1 e2 e3
      obtain ⟨ha1, hs1⟩ := canonical_fields hc1
      obtain ⟨ha2, hs2⟩ := canonical_fields hc
      have hoa1 : o1.author = op.author := by rw [← ha1, ← e1]; exact ha2
      have hon1 : o1.seq = op.seq := by rw [← hs1, ← e1]; exact hs2
      have := (hwf.idx op.author op.seq o1.id).mpr ⟨o1, ho1, hoa1, hon1, rfl⟩
      rw [hlook] at this
      injection this with this
      exact hne (this ▸ hoid1)
    show addOperationLocked s op = _
    unfold addOperationLocked
    rw [hv]
    dsimp only
    rw [if_neg (by rw [hk]; simp), hlook]
    dsimp only
    rw [if_pos hne]

/-- C2 counterexample: an operation whose id is already in the log but
which fails verification is answered with the verification error, not
with `(false, nil)` as the claim states. -/
theorem C2_counterexample :
    (∃ o ∈ c2store.ops, o.id = c2bad.id) ∧
    AddRemoteOp c2store c2bad = (.error "invalid timestamp", c2store) := by
  refine ⟨by decide, by decide⟩

/-- C2 witness: a verified exact duplicate is answered `(false, nil)`. -/
theorem C2_witness : AddRemoteOp c2store c2op = (.ok false, c2store) := by
  have happ : AppendLocalOp (initStore 0) "t" (Payload.json "1") 0 = .ok (c2op, c2store) := by
    decide
  exact (C2_duplicate_conflict_verification c2store c2op).2.1
    (Reachable.appendLocal (Reachable.init 0) happ) (by decide) ⟨c2op, by decide, rfl⟩

/-! ## Claim C3 -/

/-- C3 (amended): in every store state reachable by successful
`AppendLocalOp` calls and `AddRemoteOp` calls that deliver each author's
operations in order (each remote operation's `seq` exceeds the author's
greatest stored `seq` by at most one), every author present in the log
covers exactly the sequence numbers `1, ..., maxSeq`. -/
theorem C3_sequence_density (s : Store) (h : ReachableInOrder s) : DenseLog s :=
  (reachableInOrder_wf_dense h).2

/-- C3 counterexample: the claim as stated — density in every state
reachable by arbitrary successful `AppendLocalOp`/`AddRemoteOp` calls —
fails: a fresh store accepts a remote operation with sequence 2 and no
sequence 1, leaving a gap. -/
theorem C3_counterexample : Reachable c3store ∧ ¬ DenseLog c3store := by
  refine ⟨Reachable.addRemote (Reachable.init 1) (by decide :
    AddRemoteOp (initStore 1) c3op = (Except.ok true, c3store)), by decide⟩

/-- C3 witness: the amended claim at a one-append store. -/
theorem C3_witness : DenseLog c3wstore :=
  C3_sequence_density c3wstore
    (ReachableInOrder.appendLocal (ReachableInOrder.init 3) (by decide :
      AppendLocalOp (initStore 3) "t" (Payload.json "1") 0 = .ok (c3wop, c3wstore)))

/-! ## Claim C9 -/

/-- C9: in every reachable store state, `Summary` maps exactly the
authors that appear in the log, each to the greatest sequence number
among that author's stored operations. -/
theorem C9_summary_faithful (s : Store) (h : Reachable s) :
    (∀ a, lookupD (Summary s) a = maxSeqOps s.ops a) ∧
    (∀ a, (∃ n, lookupA (Summary s) a = some n) ↔ ∃ o ∈ s.ops, o.author = a) := by
  have hwf := reachable_wf h
  refine ⟨hwf.maxa, fun a => ?_⟩
  have hdom := hwf.dom a
  rw [Option.isSome_iff_exists] at hdom
  exact hdom

/-- C9 witness at a one-operation store. -/
theorem C9_witness :
    lookupD (Summary c9store) (nodeIDFromPublicKey 4) =
      maxSeqOps c9store.ops (nodeIDFromPublicKey 4) := by
  have happ : AppendLocalOp (initStore 4) "t" (Payload.json "1") 0 = .ok (c9op, c9store) := by
    decide
  exact (C9_summary_faithful c9store
    (Reachable.appendLocal (Reachable.init 4) happ)).1 (nodeIDFromPublicKey 4)

/-! ## Claim C10 -/

/-- C10: whenever `AddRemoteOp` rejects (a verification error, a
duplicate id, or an (author, seq) conflict — every outcome other than
`(true, nil)`), the observable store state — `Ops` and `Summary` — is
exactly what it was before the call. -/
theorem C10_rejection_atomicity (s : Store) (op : Operation)
    (h : (AddRemoteOp s op).1 ≠ .ok true) :
    (∀ limit, Ops (AddRemoteOp s op).2 limit = Ops s limit) ∧
    Summary (AddRemoteOp s op).2 = Summary s := by
  have hs : (AddRemoteOp s op).2 = s :=
    addOperationLocked_reject (@Prod.mk.eta _ _ (AddRemoteOp s op)).symm h
  rw [hs]
  exact ⟨fun _ => rfl, rfl⟩

/-- C10 witness: a rejected operation (zero sequence) leaves `Summary`
unchanged. -/
theorem C10_witness :
    Summary (AddRemoteOp (initStore 5) c10bad).2 = Summary (initStore 5) :=
  (C10_rejection_atomicity (initStore 5) c10bad (by decide)).2

/-! ## Claim C5: `MissingFor` -/

theorem sortOps_perm (l : List Operation) : (sortOps l).Perm l :=
  List.mergeSort_perm l _

theorem sortOps_pairwise (l : List Operation) :
    List.Pairwise (fun a b => opLess b a = false) (sortOps l) := by
  have h := @List.sorted_mergeSort _ (fun a b => ! opLess b a)
    (fun a b c h1 h2 => by
      rw [Bool.not_eq_true'] at h1 h2 ⊢
      exact opLess_le_trans h1 h2)
    (fun a b => by
      rw [Bool.or_eq_true, Bool.not_eq_true', Bool.not_eq_true']
      cases h1 : opLess b a
      · exact Or.inl rfl
      · cases h2 : opLess a b
        · exact Or.inr rfl
        · exact absurd (opLess_not_both h2 h1) not_false) l
  refine h.imp ?_
  intro a b hab
  rw [Bool.not_eq_true'] at hab
  exact hab

theorem missingLoop_nonpos (summary : SummaryMap) (limit : Int) (hl : ¬ 0 < limit) :
    ∀ (l : List Operation) (out : List Operation),
      missingLoop summary limit l out =
        out ++ l.filter (fun op => decide (lookupD summary op.author < op.seq)) := by
  intro l
  induction l with
  | nil => intro out; simp [missingLoop]
  | cons op l ih =>
    intro out
    unfold missingLoop
    by_cases hp : lookupD summary op.author < op.seq
    · rw [if_pos hp, if_neg (by rw [not_and_or]; exact Or.inl hl)]
      rw [ih (out ++ [op])]
      rw [List.filter_cons_of_pos (by simpa using hp), List.append_assoc]
      rfl
    · rw [if_neg hp, ih out, List.filter_cons_of_neg (by simpa using hp)]

theorem missingLoop_pos (summary : SummaryMap) (limit : Int) (hl : 0 < limit) :
    ∀ (l : List Operation) (out : List Operation), (out.length : Int) < limit →
      missingLoop summary limit l out =
        out ++ (l.filter (fun op => decide (lookupD summary op.author < op.seq))).take
          (limit.toNat - out.length) := by
  intro l
  induction l with
  | nil => intro out hlen; simp [missingLoop]
  | cons op l ih =>
    intro out hlen
    unfold missingLoop
    by_cases hp : lookupD summary op.author < op.seq
    · rw [if_pos hp]
      rw [List.filter_cons_of_pos (by simpa using hp)]
      by_cases hstop : limit ≤ ((out ++ [op]).length : Int)
      · rw [if_pos ⟨hl, hstop⟩]
        rw [List.length_append, List.length_singleton] at hstop
        have hone : limit.toNat - out.length = 1 := by omega
        rw [hone]
        simp
      · rw [if_neg (by rw [not_and_or]; exact Or.inr hstop)]
        rw [List.length_append, List.length_singleton] at hstop
        rw [ih (out ++ [op]) (by rw [List.length_append, List.length_singleton]; omega)]
        rw [List.length_append, List.length_singleton, List.append_assoc]
        have htake : limit.toNat - out.length = (limit.toNat - (out.length + 1)) + 1 := by
          omega
        rw [htake, List.take_succ_cons]
        rfl
    · rw [if_neg hp]
      rw [ih out hlen, List.filter_cons_of_neg (by simpa using hp)]

/-- C5: `MissingFor` returns exactly the stored operations with
`seq > summary[author]` (a nil summary is empty and absent authors
default to 0 through `lookupD`), in author-ascending then seq-ascending
order, truncated after the first `limit` results in that order when
`limit > 0`. -/
theorem C5_missingFor (s : Store) (summary : SummaryMap) (limit : Int) :
    List.Pairwise
      (fun a b => strLt a.author b.author = true ∨ (a.author = b.author ∧ a.seq ≤ b.seq))
      (MissingFor s summary limit) ∧
    (limit ≤ 0 → (MissingFor s summary limit).Perm
      (s.ops.filter (fun op => decide (lookupD summary op.author < op.seq)))) ∧
    (0 < limit → MissingFor s summary limit = (MissingFor s summary 0).take limit.toNat) := by
  have hfilter : List.Pairwise (fun a b => opLess b a = false)
      ((sortOps s.ops).filter (fun op => decide (lookupD summary op.author < op.seq))) :=
    (sortOps_pairwise s.ops).filter _
  have hzero : MissingFor s summary 0 =
      (sortOps s.ops).filter (fun op => decide (lookupD summary op.author < op.seq)) := by
    unfold MissingFor
    rw [missingLoop_nonpos summary 0 (by omega)]
    rfl
  refine ⟨?_, ?_, ?_⟩
  · by_cases hl : 0 < limit
    · unfold MissingFor
      rw [missingLoop_pos summary limit hl _ [] (by simpa using hl)]
      rw [List.nil_append]
      exact ((hfilter.sublist (List.take_sublist _ _)).imp
        (fun hab => (opLess_false_iff _ _).mp hab))
    · unfold MissingFor
      rw [missingLoop_nonpos summary limit hl]
      rw [List.nil_append]
      exact hfilter.imp (fun hab => (opLess_false_iff _ _).mp hab)
  · intro hl
    unfold MissingFor
    rw [missingLoop_nonpos summary limit (by omega)]
    rw [List.nil_append]
    exact (sortOps_perm s.ops).filter _
  · intro hl
    unfold MissingFor
    rw [missingLoop_pos summary limit hl _ [] (by simpa using hl)]
    rw [missingLoop_nonpos summary 0 (by omega)]
    simp

/-- C5 witness: the `MissingFor` characterization evaluated on a
concrete two-operation store, at limits 0 and 1. -/
theorem C5_witness :
    (MissingFor c5store [] 0).Perm
      (c5store.ops.filter (fun op => decide (lookupD [] op.author < op.seq))) ∧
    MissingFor c5store [] 1 = (MissingFor c5store [] 0).take (1 : Int).toNat := by
  constructor
  · exact (C5_missingFor c5store [] 0).2.1 (by decide)
  · exact (C5_missingFor c5store [] 1).2.2 (by decide)

/-! ## Claim C4: `processPendingPushes` -/

theorem gitPushPhase_firstErr (env : PendEnv) (push : PendingPush)
    (res : PendResult) (e : String) :
    (gitPushPhase env push res (some e)).2.1 = some e := by
  unfold gitPushPhase
  cases env.runGit ("push" :: push.gitArgs) <;> rfl

theorem processOnePush_firstErr (env : PendEnv) (push : PendingPush)
    (res : PendResult) (e : String) :
    (processOnePush env push res (some e)).2.1 = some e := by
  unfold processOnePush
  dsimp only
  split
  · rfl
  · split
    · rfl
    · split
      · rfl
      · split
        · split
          · rfl
          · exact gitPushPhase_firstErr env push _ e
        · exact gitPushPhase_firstErr env push _ e

theorem processLoop_firstErr (env : PendEnv) (opid : String) (e : String) :
    ∀ (l : List PendingPush) (res : PendResult),
      (processLoop env opid l res (some e)).2.1 = some e := by
  intro l
  induction l with
  | nil => intro res; rfl
  | cons push rest ih =>
    intro res
    simp only [processLoop]
    split_ifs with h
    · exact ih res
    · show (processLoop env opid rest (processOnePush env push res (some e)).1
              (processOnePush env push res (some e)).2.1).2.1 = some e
      rw [processOnePush_firstErr env push res e]
      exact ih _

/-- C4: `processPendingPushes` loads the queue and folds the loop over
it from zero counters; the loop skips entries whose status is completed;
a non-skipped entry is processed and the loop then continues with the
remaining items; a selected push whose proposal status is expired is
marked failed (counted in `failed`) with the expiry message folded into
the first error; one that is neither certified nor has quorum is marked
pending with the awaiting-quorum message, counted in `pending`, and the
backend push is not invoked for it; and a first error already recorded
is returned unchanged after the remaining items are processed. -/
theorem C4_processPendingPushes (env : PendEnv) (opid : String)
    (file : List PendingPush) (push : PendingPush) (rest l : List PendingPush)
    (res : PendResult) (fe : Option String) (st : ProposalStatusR) :
    (∀ pushes, loadPendingPushes file = .ok pushes →
      processPendingPushes env opid file
        = processLoop env opid pushes zeroPendResult none) ∧
    (push.status = PendingPushStatusCompleted →
      processLoop env opid (push :: rest) res fe
        = processLoop env opid rest res fe) ∧
    (¬ ((opid ≠ "" ∧ push.proposalID ≠ opid)
          ∨ push.status = PendingPushStatusCompleted) →
      processLoop env opid (push :: rest) res fe
        = ((processLoop env opid rest (processOnePush env push res fe).1
              (processOnePush env push res fe).2.1).1,
           (processLoop env opid rest (processOnePush env push res fe).1
              (processOnePush env push res fe).2.1).2.1,
           (processOnePush env push res fe).2.2
             ++ (processLoop env opid rest (processOnePush env push res fe).1
                  (processOnePush env push res fe).2.1).2.2)) ∧
    (env.proposalStatus push.proposalID = .ok st → st.expired = true →
      processOnePush env push res fe
        = ({ res with checked := res.checked + 1, failed := res.failed + 1 },
            updateFirstErr fe expiredMsg,
            [.markFailed push.proposalID expiredMsg])) ∧
    (env.proposalStatus push.proposalID = .ok st → st.expired = false →
      st.certified = false → st.hasQuorum = false →
      processOnePush env push res fe
        = ({ res with checked := res.checked + 1, pending := res.pending + 1 },
            fe, [.markPending push.proposalID (awaitingQuorumMsg st)]) ∧
      ∀ args, PAction.gitPush args ∉ (processOnePush env push res fe).2.2) ∧
    (∀ e, fe = some e → (processLoop env opid l res fe).2.1 = some e) := by
  refine ⟨?_, ?_, ?_, ?_, ?_, ?_⟩
  · intro pushes hl
    unfold processPendingPushes
    rw [hl]
  · intro h
    simp only [processLoop]
    rw [if_pos (Or.inr h)]
  · intro h
    simp only [processLoop]
    rw [if_neg h]
  · intro hst hexp
    unfold processOnePush
    rw [hst]
    dsimp only
    rw [if_pos hexp]
  · intro hst hexp hc hq
    have heq : processOnePush env push res fe
        = ({ res with checked := res.checked + 1, pending := res.pending + 1 },
            fe, [.markPending push.proposalID (awaitingQuorumMsg st)]) := by
      unfold processOnePush
      rw [hst]
      dsimp only
      rw [if_neg (by simp [hexp]), if_pos ⟨by simp [hc], by simp [hq]⟩]
    exact ⟨heq, fun args => by rw [heq]; simp⟩
  · intro e he
    subst he
    exact processLoop_firstErr env opid e l res

theorem mapM_norm_single (p q : PendingPush)
    (h : normalizePendingPush p false 0 = .ok q) :
    List.mapM (fun r => normalizePendingPush r false 0) [p] = .ok [q] := by
  simp [List.mapM, List.mapM.loop, h]

theorem loadPendingPushes_single (p q : PendingPush)
    (h : normalizePendingPush p false 0 = .ok q) :
    loadPendingPushes [p] = .ok [q] := by
  unfold loadPendingPushes
  rw [mapM_norm_single p q h]
  simp [List.mergeSort_singleton]

theorem loadPendingPushes_nil : loadPendingPushes [] = .ok [] := by
  unfold loadPendingPushes
  simp [List.mapM, List.mapM.loop, List.mergeSort_nil, pure, Except.pure]

/-- C4 witness: the loop equations evaluated against a concrete queue
and oracle environment: the completed entry `q` is skipped, the expired
proposal `p` is marked failed, the quorum-less proposal `r` is marked
pending without a backend push, and a recorded first error survives the
processing of a further item. -/
theorem C4_witness :
    (processPendingPushes c4env "" [c4cpush]
       = processLoop c4env "" [c4cpush] zeroPendResult none) ∧
    (processLoop c4env "" [c4cpush] zeroPendResult none
       = processLoop c4env "" [] zeroPendResult none) ∧
    (processOnePush c4env c4push zeroPendResult none
       = ({ zeroPendResult with checked := 1, failed := 1 },
           updateFirstErr none expiredMsg, [.markFailed "p" expiredMsg])) ∧
    (processOnePush c4env c4push2 zeroPendResult none
       = ({ zeroPendResult with checked := 1, pending := 1 },
           none, [.markPending "r" (awaitingQuorumMsg c4st2)])) ∧
    (processLoop c4env "" [c4push] zeroPendResult (some "boom")).2.1
       = some "boom" := by
  refine ⟨?_, ?_, ?_, ?_, ?_⟩
  · exact (C4_processPendingPushes c4env "" [c4cpush] c4cpush [] []
      zeroPendResult none c4st).1 [c4cpush]
      (loadPendingPushes_single c4cpush c4cpush rfl)
  · exact (C4_processPendingPushes c4env "" [] c4cpush [] []
      zeroPendResult none c4st).2.1 rfl
  · exact (C4_processPendingPushes c4env "" [] c4push [] []
      zeroPendResult none c4st).2.2.2.1 rfl rfl
  · exact ((C4_processPendingPushes c4env "" [] c4push2 [] []
      zeroPendResult none c4st2).2.2.2.2.1 rfl rfl rfl rfl).1
  · exact (C4_processPendingPushes c4env "" [] c4push [] [c4push]
      zeroPendResult (some "boom") c4st).2.2.2.2.2 "boom" rfl

/-! ## Claim C6: `UpsertPendingPush` -/

theorem normalizePendingPush_write_ok {push np : PendingPush} {now : Nat}
    (h : normalizePendingPush push true now = .ok np) :
    np.updatedAt = fmtTime now ∧
    np.createdAt = (if push.createdAt = "" then fmtTime now else push.createdAt) ∧
    np.attempts = push.attempts ∧
    np.proposalID = trimSpace push.proposalID := by
  unfold normalizePendingPush at h
  dsimp only at h
  by_cases h1 : trimSpace push.proposalID = ""
  · rw [if_pos h1] at h; exact absurd h (by simp)
  rw [if_neg h1] at h
  by_cases h2 : trimSpace push.targetRef = ""
  · rw [if_pos h2] at h; exact absurd h (by simp)
  rw [if_neg h2] at h
  by_cases h3 : push.status = ""
  · rw [if_pos h3] at h
    dsimp only at h
    rw [if_neg (by simp [PendingPushStatusPending, PendingPushStatusFailed,
      PendingPushStatusCompleted])] at h
    rw [if_pos rfl] at h
    injection h with h
    subst h
    exact ⟨rfl, rfl, rfl, rfl⟩
  · rw [if_neg h3] at h
    dsimp only at h
    by_cases h4 : push.status ≠ PendingPushStatusPending
        ∧ push.status ≠ PendingPushStatusFailed
        ∧ push.status ≠ PendingPushStatusCompleted
    · rw [if_pos h4] at h; exact absurd h (by simp)
    · rw [if_neg h4] at h
      rw [if_pos rfl] at h
      injection h with h
      subst h
      exact ⟨rfl, rfl, rfl, rfl⟩

theorem upsertReplace_not_found (p : PendingPush) (l : List PendingPush)
    (h : ∀ q ∈ l, q.proposalID ≠ p.proposalID) :
    upsertReplace p l = (l, false, p) := by
  induction l with
  | nil => rfl
  | cons q rest ih =>
    unfold upsertReplace
    rw [if_neg (h q (by simp)), ih (fun r hr => h r (by simp [hr]))]

theorem upsertReplace_found (p q : PendingPush) (l1 l2 : List PendingPush)
    (hq : q.proposalID = p.proposalID)
    (h1 : ∀ r ∈ l1, r.proposalID ≠ p.proposalID) :
    upsertReplace p (l1 ++ q :: l2)
      = (l1 ++ { p with
            createdAt := q.createdAt,
            attempts := if p.attempts < q.attempts then q.attempts
              else p.attempts } :: l2,
         true,
         { p with
           createdAt := q.createdAt,
           attempts := if p.attempts < q.attempts then q.attempts
             else p.attempts }) := by
  induction l1 with
  | nil =>
    simp only [List.nil_append]
    unfold upsertReplace
    rw [if_pos hq]
  | cons r rest ih =>
    simp only [List.cons_append]
    unfold upsertReplace
    rw [if_neg (h1 r (by simp)), ih (fun r2 hr => h1 r2 (by simp [hr]))]

/-- C6 (amended): `UpsertPendingPush` is keyed by `proposal_id`: when an
entry with the stored record's `proposal_id` already exists, the result
keeps the existing `created_at`, takes the larger of the two `attempts`,
overwrites the other fields and sets `updated_at` to now; when none
exists the normalized record is appended, with `updated_at = now` and
`created_at = now` exactly when the caller left `created_at` empty (a
caller-supplied `created_at` is kept). -/
theorem C6_upsert_semantics (file : List PendingPush) (push np q : PendingPush)
    (now : Nat) (pushes l1 l2 : List PendingPush)
    (hn : normalizePendingPush push true now = .ok np)
    (hl : loadPendingPushes file = .ok pushes) :
    (np.updatedAt = fmtTime now ∧
      np.createdAt = (if push.createdAt = "" then fmtTime now else push.createdAt) ∧
      np.attempts = push.attempts) ∧
    ((∀ r ∈ pushes, r.proposalID ≠ np.proposalID) →
      UpsertPendingPush file push now = .ok (np, pushes ++ [np])) ∧
    (pushes = l1 ++ q :: l2 → q.proposalID = np.proposalID →
      (∀ r ∈ l1, r.proposalID ≠ np.proposalID) →
      UpsertPendingPush file push now
        = .ok ({ np with
              createdAt := q.createdAt,
              attempts := if np.attempts < q.attempts then q.attempts
                else np.attempts },
            l1 ++ { np with
              createdAt := q.createdAt,
              attempts := if np.attempts < q.attempts then q.attempts
                else np.attempts } :: l2)) := by
  obtain ⟨h1, h2, h3, _⟩ := normalizePendingPush_write_ok hn
  refine ⟨⟨h1, h2, h3⟩, ?_, ?_⟩
  · intro hall
    unfold UpsertPendingPush
    rw [hn, hl]
    dsimp only
    rw [upsertReplace_not_found np pushes hall]
    rfl
  · intro hsplit hq hall
    subst hsplit
    unfold UpsertPendingPush
    rw [hn, hl]
    dsimp only
    rw [upsertReplace_found np q l1 l2 hq hall]
    rfl

/-- C6 counterexample: a first insert whose caller supplied `created_at`
keeps it, so the inserted record does not have
`created_at = updated_at = now` as the claim states. -/
theorem C6_counterexample :
    UpsertPendingPush [] c6push 0 = .ok (c6np, [c6np]) ∧
    c6np.createdAt ≠ fmtTime 0 := by
  constructor
  · unfold UpsertPendingPush
    rw [show normalizePendingPush c6push true 0 = .ok c6np from rfl,
        loadPendingPushes_nil]
    rfl
  · decide

/-- C6 witness: the amended insert clause on an empty queue for a push
without `created_at`: the stored record has
`created_at = updated_at = now`. -/
theorem C6_witness :
    UpsertPendingPush [] c6wpush 0 = .ok (c6wnp, [c6wnp]) ∧
    c6wnp.createdAt = fmtTime 0 ∧ c6wnp.updatedAt = fmtTime 0 := by
  refine ⟨?_, ?_, ?_⟩
  · exact (C6_upsert_semantics [] c6wpush c6wnp c6wnp 0 [] [] [] rfl
      loadPendingPushes_nil).2.1 (by simp)
  · decide
  · decide

/-! ## Claim C7: the mark-status updates -/

theorem updateStatusLoop_not_found (pid status le2 : String) (now : Nat)
    (l : List PendingPush) (h : ∀ r ∈ l, r.proposalID ≠ pid) :
    updateStatusLoop pid status le2 now l = none := by
  induction l with
  | nil => rfl
  | cons r rest ih =>
    unfold updateStatusLoop
    rw [if_neg (h r (by simp)), ih (fun r2 hr => h r2 (by simp [hr]))]

theorem updateStatusLoop_found (pid status le2 : String) (now : Nat)
    (l1 l2 : List PendingPush) (q : PendingPush)
    (hq : q.proposalID = pid) (h1 : ∀ r ∈ l1, r.proposalID ≠ pid) :
    updateStatusLoop pid status le2 now (l1 ++ q :: l2)
      = some (l1 ++ (if status = PendingPushStatusCompleted then
            { q with
              status := status, lastError := "",
              updatedAt := fmtTime now, lastTriedAt := fmtTime now,
              attempts := q.attempts + 1, completedAt := fmtTime now }
          else
            { q with
              status := status, lastError := trimSpace le2,
              updatedAt := fmtTime now, lastTriedAt := fmtTime now,
              attempts := q.attempts + 1 }) :: l2) := by
  induction l1 with
  | nil =>
    simp only [List.nil_append]
    unfold updateStatusLoop
    rw [if_pos hq]
  | cons r rest ih =>
    simp only [List.cons_append]
    unfold updateStatusLoop
    rw [if_neg (h1 r (by simp)), ih (fun r2 hr => h1 r2 (by simp [hr]))]

theorem updatePendingPushStatus_found (file : List PendingPush)
    (pid status le2 : String) (now : Nat) (pushes l1 l2 : List PendingPush)
    (q : PendingPush) (hl : loadPendingPushes file = .ok pushes)
    (hpid : trimSpace pid ≠ "")
    (hsplit : pushes = l1 ++ q :: l2) (hq : q.proposalID = trimSpace pid)
    (hall : ∀ r ∈ l1, r.proposalID ≠ trimSpace pid) :
    updatePendingPushStatus file pid status le2 now
      = .ok (l1 ++ (if status = PendingPushStatusCompleted then
            { q with
              status := status, lastError := "",
              updatedAt := fmtTime now, lastTriedAt := fmtTime now,
              attempts := q.attempts + 1, completedAt := fmtTime now }
          else
            { q with
              status := status, lastError := trimSpace le2,
              updatedAt := fmtTime now, lastTriedAt := fmtTime now,
              attempts := q.attempts + 1 }) :: l2) := by
  subst hsplit
  unfold updatePendingPushStatus
  dsimp only
  rw [if_neg hpid, hl]
  dsimp only
  rw [updateStatusLoop_found (trimSpace pid) status le2 now l1 l2 q hq hall]

theorem updatePendingPushStatus_not_found (file : List PendingPush)
    (pid status le2 : String) (now : Nat) (pushes : List PendingPush)
    (hl : loadPendingPushes file = .ok pushes) (hpid : trimSpace pid ≠ "")
    (hall : ∀ r ∈ pushes, r.proposalID ≠ trimSpace pid) :
    updatePendingPushStatus file pid status le2 now
      = .error (notFoundMsg (trimSpace pid)) := by
  unfold updatePendingPushStatus
  dsimp only
  rw [if_neg hpid, hl]
  dsimp only
  rw [updateStatusLoop_not_found (trimSpace pid) status le2 now pushes hall]

/-- C7 (amended): for a proposal id that is non-blank after trimming,
each of `MarkPendingPushPending`, `MarkPendingPushFailed` and
`MarkPendingPushCompleted` rewrites the first queue entry with that id:
it sets the corresponding status, sets `updated_at` and `last_tried_at`
to now, and increments `attempts`; Completed additionally sets
`completed_at` and clears `last_error` while Pending/Failed store the
trimmed message as `last_error`; each returns the not-found error
exactly when no loaded entry carries that id.  A blank proposal id is
instead rejected with `proposal ID is required`. -/
theorem C7_mark_status (file : List PendingPush) (pid msg : String) (now : Nat)
    (pushes l1 l2 : List PendingPush) (q : PendingPush)
    (hl : loadPendingPushes file = .ok pushes)
    (hpid : trimSpace pid ≠ "") :
    (pushes = l1 ++ q :: l2 → q.proposalID = trimSpace pid →
      (∀ r ∈ l1, r.proposalID ≠ trimSpace pid) →
      MarkPendingPushPending file pid msg now
        = .ok (l1 ++ { q with
            status := PendingPushStatusPending,
            lastError := trimSpace msg, updatedAt := fmtTime now,
            lastTriedAt := fmtTime now, attempts := q.attempts + 1 } :: l2) ∧
      MarkPendingPushFailed file pid msg now
        = .ok (l1 ++ { q with
            status := PendingPushStatusFailed,
            lastError := trimSpace msg, updatedAt := fmtTime now,
            lastTriedAt := fmtTime now, attempts := q.attempts + 1 } :: l2) ∧
      MarkPendingPushCompleted file pid now
        = .ok (l1 ++ { q with
            status := PendingPushStatusCompleted,
            lastError := "", updatedAt := fmtTime now,
            lastTriedAt := fmtTime now, attempts := q.attempts + 1,
            completedAt := fmtTime now } :: l2)) ∧
    ((∀ r ∈ pushes, r.proposalID ≠ trimSpace pid) →
      MarkPendingPushPending file pid msg now
        = .error (notFoundMsg (trimSpace pid)) ∧
      MarkPendingPushFailed file pid msg now
        = .error (notFoundMsg (trimSpace pid)) ∧
      MarkPendingPushCompleted file pid now
        = .error (notFoundMsg (trimSpace pid))) ∧
    MarkPendingPushFailed file "" msg now
      = .error "proposal ID is required" := by
  refine ⟨?_, ?_, rfl⟩
  · intro hsplit hq hall
    refine ⟨?_, ?_, ?_⟩
    · have h := updatePendingPushStatus_found file pid PendingPushStatusPending
        msg now pushes l1 l2 q hl hpid hsplit hq hall
      rw [if_neg (by decide)] at h
      exact h
    · have h := updatePendingPushStatus_found file pid PendingPushStatusFailed
        msg now pushes l1 l2 q hl hpid hsplit hq hall
      rw [if_neg (by decide)] at h
      exact h
    · have h := updatePendingPushStatus_found file pid PendingPushStatusCompleted
        "" now pushes l1 l2 q hl hpid hsplit hq hall
      rw [if_pos rfl] at h
      exact h
  · intro hall
    exact ⟨updatePendingPushStatus_not_found file pid PendingPushStatusPending
        msg now pushes hl hpid hall,
      updatePendingPushStatus_not_found file pid PendingPushStatusFailed
        msg now pushes hl hpid hall,
      updatePendingPushStatus_not_found file pid PendingPushStatusCompleted
        "" now pushes hl hpid hall⟩

/-- C7 counterexample: a blank proposal id is rejected with
`proposal ID is required`, not with the not-found error the claim
promises whenever no queue entry has the given id. -/
theorem C7_counterexample :
    MarkPendingPushFailed [] "" "m" 0 = .error "proposal ID is required" ∧
    (Except.error "proposal ID is required" : Except String (List PendingPush))
      ≠ .error (notFoundMsg (trimSpace "")) := by
  constructor
  · rfl
  · decide

/-- C7 witness: `MarkPendingPushFailed` on a one-entry queue updates the
entry in place: status failed, message stored, timestamps set, attempts
incremented. -/
theorem C7_witness :
    MarkPendingPushFailed [c7push] "p" "boom" 0 = .ok [c7upd] := by
  have h := ((C7_mark_status [c7push] "p" "boom" 0 [c7push] [] [] c7push
      (loadPendingPushes_single c7push c7push rfl) (by decide)).1
      rfl (by decide) (by simp)).2.1
  exact h

/-! ## Claim C8: peer normalization -/

theorem splitSchemeSep_append_eq : ∀ (l a b : List Char),
    splitSchemeSep l = some (a, b) → l = a ++ ':' :: '/' :: '/' :: b := by
  intro l
  induction l using splitSchemeSep.induct with
  | case1 => intro a b h; simp [splitSchemeSep] at h
  | case2 rest =>
    intro a b h
    rw [show splitSchemeSep (':' :: '/' :: '/' :: rest) = some ([], rest) from rfl] at h
    injection h with h
    rw [Prod.mk.injEq] at h
    obtain ⟨rfl, rfl⟩ := h
    rfl
  | case3 c rest hne a2 b2 heq ih =>
    intro a b h
    rw [splitSchemeSep.eq_def] at h
    split at h
    · simp at h
    · rename_i rest2 heq2
      injection heq2 with hc hr
      exact (hne rest2 hc hr).elim
    · rename_i heq2
      injection heq2 with hc hr
      subst hc
      subst hr
      rw [heq] at h
      dsimp only at h
      injection h with h
      rw [Prod.mk.injEq] at h
      obtain ⟨rfl, rfl⟩ := h
      rw [ih a2 b2 heq]
      rfl
  | case4 c rest hne heq ih =>
    intro a b h
    rw [splitSchemeSep.eq_def] at h
    split at h
    · simp at h
    · rename_i rest2 heq2
      injection heq2 with hc hr
      exact (hne rest2 hc hr).elim
    · rename_i heq2
      injection heq2 with hc hr
      subst hc
      subst hr
      rw [heq] at h
      exact absurd h (by simp)

theorem splitSchemeSep_boundary : ∀ (s r : List Char), ':' ∉ s →
    splitSchemeSep (s ++ ':' :: '/' :: '/' :: r) = some (s, r) := by
  intro s
  induction s with
  | nil => intro r h; rfl
  | cons c s2 ih =>
    intro r h
    rw [List.cons_append, splitSchemeSep.eq_def]
    split
    · rename_i heq2
      cases heq2
    · rename_i rest2 heq2
      injection heq2 with hc hr
      exact absurd (by simp [hc] : ':' ∈ c :: s2) h
    · rename_i heq2
      injection heq2 with hc hr
      subst hc
      rw [← hr]
      rw [ih r (fun hm => h (List.mem_cons_of_mem c hm))]

theorem takeWhile_append_all {p : Char → Bool} :
    ∀ (l1 l2 : List Char), (∀ c ∈ l1, p c = true) →
      (l1 ++ l2).takeWhile p = l1 ++ l2.takeWhile p
  | [], l2, _ => rfl
  | c :: l1, l2, h => by
    rw [List.cons_append, List.takeWhile_cons, if_pos (h c (by simp)),
      takeWhile_append_all l1 l2 (fun x hx => h x (by simp [hx]))]
    rfl

theorem dropWhile_append_all {p : Char → Bool} :
    ∀ (l1 l2 : List Char), (∀ c ∈ l1, p c = true) →
      (l1 ++ l2).dropWhile p = l2.dropWhile p
  | [], l2, _ => rfl
  | c :: l1, l2, h => by
    rw [List.cons_append, List.dropWhile_cons, if_pos (h c (by simp)),
      dropWhile_append_all l1 l2 (fun x hx => h x (by simp [hx]))]

theorem takeWhile_all {p : Char → Bool} :
    ∀ {l : List Char}, (∀ c ∈ l, p c = true) → l.takeWhile p = l
  | [], _ => rfl
  | c :: l, h => by
    rw [List.takeWhile_cons, if_pos (h c (by simp)),
      takeWhile_all (fun x hx => h x (by simp [hx]))]

theorem dropWhile_head_false {p : Char → Bool} :
    ∀ {l : List Char} {c : Char} {t : List Char},
      l.dropWhile p = c :: t → p c = false
  | [], c, t, h => by simp [List.dropWhile] at h
  | a :: l, c, t, h => by
    rw [List.dropWhile_cons] at h
    by_cases ha : p a = true
    · rw [if_pos ha] at h
      exact dropWhile_head_false h
    · rw [if_neg ha] at h
      injection h with hc ht
      subst hc
      exact Bool.of_not_eq_true ha

theorem hostSplit (hstD p2D : List Char)
    (hhost : ∀ c ∈ hstD, hostStop c = false)
    (hhead : p2D = [] ∨ p2D.head? = some '/') :
    (hstD ++ p2D).takeWhile (fun c => ! hostStop c) = hstD ∧
    (hstD ++ p2D).dropWhile (fun c => ! hostStop c) = p2D := by
  have hall : ∀ c ∈ hstD, (fun c => ! hostStop c) c = true := by
    intro c hc
    simp [hhost c hc]
  have htk : p2D.takeWhile (fun c => ! hostStop c) = [] ∧
      p2D.dropWhile (fun c => ! hostStop c) = p2D := by
    rcases hhead with h0 | h0
    · subst h0; exact ⟨rfl, rfl⟩
    · cases p2D with
      | nil => exact ⟨rfl, rfl⟩
      | cons d t =>
        have hd : d = '/' := by
          simpa using h0
        subst hd
        constructor
        · rw [List.takeWhile_cons, if_neg (by simp [hostStop])]
        · rw [List.dropWhile_cons, if_neg (by simp [hostStop])]
  constructor
  · rw [takeWhile_append_all hstD p2D hall, htk.1, List.append_nil]
  · rw [dropWhile_append_all hstD p2D hall, htk.2]

theorem parseURL_parts (out sch hst p2 : String)
    (hdata : out.data = sch.data ++ ':' :: '/' :: '/' :: (hst.data ++ p2.data))
    (hsp : ∀ c ∈ out.data, isSpaceGo c = false)
    (hcolon : ':' ∉ sch.data)
    (hhost : ∀ c ∈ hst.data, hostStop c = false)
    (hpath : ∀ c ∈ p2.data, pathStop c = false)
    (hhead : p2.data = [] ∨ p2.data.head? = some '/') :
    parseURL out = some ⟨sch, hst, p2, "", ""⟩ := by
  unfold parseURL
  rw [if_neg (by simp [List.any_eq_true]; intro c hc; exact hsp c hc)]
  rw [hdata, splitSchemeSep_boundary sch.data _ hcolon]
  dsimp only
  rw [(hostSplit hst.data p2.data hhost hhead).1,
    (hostSplit hst.data p2.data hhost hhead).2]
  rw [takeWhile_all (by intro c hc; simp [hpath c hc]),
    dropWhile_all_true (by intro c hc; simp [hpath c hc])]

theorem parseURL_some {raw : String} {u : URL} (h : parseURL raw = some u) :
    (∀ c ∈ raw.data, isSpaceGo c = false) ∧
    (∀ c ∈ u.host.data, hostStop c = false) ∧
    (∀ c ∈ u.host.data, isSpaceGo c = false) ∧
    (∀ c ∈ u.path.data, pathStop c = false) ∧
    (∀ c ∈ u.path.data, isSpaceGo c = false) ∧
    (u.path.data = [] ∨ u.path.data.head? = some '/') := by
  unfold parseURL at h
  by_cases hsp : raw.data.any isSpaceGo
  · rw [if_pos hsp] at h; cases h
  rw [if_neg hsp] at h
  have hspf : ∀ c ∈ raw.data, isSpaceGo c = false := by
    intro c hc
    by_contra hcon
    exact hsp (List.any_eq_true.mpr ⟨c, hc, by simpa using hcon⟩)
  cases hss : splitSchemeSep raw.data with
  | none => rw [hss] at h; cases h
  | some pr =>
    obtain ⟨sc, rest⟩ := pr
    rw [hss] at h
    dsimp only at h
    injection h with h
    subst h
    have hrest : ∀ c ∈ rest, c ∈ raw.data := by
      intro c hc
      rw [splitSchemeSep_append_eq raw.data sc rest hss]
      simp [hc]
    have hhostStop : ∀ c ∈ rest.takeWhile (fun c => ! hostStop c), hostStop c = false := by
      intro c hc
      have := List.mem_takeWhile_imp hc
      simpa using this
    have hhostMem : ∀ c ∈ rest.takeWhile (fun c => ! hostStop c), c ∈ raw.data := by
      intro c hc
      exact hrest c ((List.takeWhile_sublist _).mem hc)
    have hr1Mem : ∀ c ∈ rest.dropWhile (fun c => ! hostStop c), c ∈ raw.data := by
      intro c hc
      exact hrest c ((List.dropWhile_sublist _).mem hc)
    have hpathStop : ∀ c ∈ (rest.dropWhile (fun c => ! hostStop c)).takeWhile
        (fun c => ! pathStop c), pathStop c = false := by
      intro c hc
      have := List.mem_takeWhile_imp hc
      simpa using this
    have hpathMem : ∀ c ∈ (rest.dropWhile (fun c => ! hostStop c)).takeWhile
        (fun c => ! pathStop c), c ∈ raw.data := by
      intro c hc
      exact hr1Mem c ((List.takeWhile_sublist _).mem hc)
    have hhead : ((rest.dropWhile (fun c => ! hostStop c)).takeWhile
          (fun c => ! pathStop c)) = [] ∨
        ((rest.dropWhile (fun c => ! hostStop c)).takeWhile
          (fun c => ! pathStop c)).head? = some '/' := by
      cases hr1 : rest.dropWhile (fun c => ! hostStop c) with
      | nil => exact Or.inl rfl
      | cons c t =>
        have hcs : hostStop c = true := by
          have := dropWhile_head_false hr1
          simpa using this
        by_cases hps : pathStop c = true
        · rw [List.takeWhile_cons, if_neg (by simp [hps])]
          exact Or.inl rfl
        · have hcslash : c = '/' := by
            simp only [hostStop, Bool.or_eq_true, decide_eq_true_eq] at hcs
            simp only [pathStop, Bool.or_eq_true, decide_eq_true_eq] at hps
            rcases hcs with (h0 | h0) | h0
            · exact h0
            · exact absurd (Or.inl h0) hps
            · exact absurd (Or.inr h0) hps
          rw [List.takeWhile_cons, if_pos (by simp [hps])]
          rw [hcslash]
          exact Or.inr rfl
    exact ⟨hspf, hhostStop, fun c hc => hspf c (hhostMem c hc), hpathStop,
      fun c hc => hspf c (hpathMem c hc), hhead⟩

theorem trimSuffixSlash_mem {s : String} {c : Char}
    (hc : c ∈ (trimSuffixSlash s).data) : c ∈ s.data := by
  unfold trimSuffixSlash at hc
  by_cases h : s.data.getLast? = some '/'
  · rw [if_pos h] at hc
    exact (List.dropLast_sublist s.data).mem hc
  · rw [if_neg h] at hc
    exact hc

theorem trimSuffixSlash_head {s : String}
    (h : s.data = [] ∨ s.data.head? = some '/') :
    (trimSuffixSlash s).data = [] ∨ (trimSuffixSlash s).data.head? = some '/' := by
  unfold trimSuffixSlash
  by_cases hl : s.data.getLast? = some '/'
  · rw [if_pos hl]
    show s.data.dropLast = [] ∨ (s.data.dropLast).head? = some '/'
    rcases h with h0 | h0
    · rw [h0]; exact Or.inl rfl
    · cases hs : s.data with
      | nil => exact Or.inl rfl
      | cons d t =>
        rw [hs] at h0
        have hd : d = '/' := by simpa using h0
        subst hd
        cases t with
        | nil => exact Or.inl rfl
        | cons e t2 => exact Or.inr rfl
  · rw [if_neg hl]
    exact h

theorem trimSuffixSlash_eq_self {s : String} (h : s.data.getLast? ≠ some '/') :
    trimSuffixSlash s = s := by
  unfold trimSuffixSlash
  rw [if_neg h]

theorem normalizePeer_ok_inv {raw out : String} (h : normalizePeer raw = .ok out) :
    ∃ u : URL, ∃ p2 : String,
      (u.scheme = "http" ∨ u.scheme = "https") ∧ u.host ≠ "" ∧
      (∀ c ∈ u.host.data, hostStop c = false) ∧
      (∀ c ∈ u.host.data, isSpaceGo c = false) ∧
      (∀ c ∈ p2.data, pathStop c = false) ∧
      (∀ c ∈ p2.data, isSpaceGo c = false) ∧
      (p2.data = [] ∨ p2.data.head? = some '/') ∧
      out.data = u.scheme.data ++ ':' :: '/' :: '/' :: (u.host.data ++ p2.data) := by
  unfold normalizePeer at h
  dsimp only at h
  by_cases h1 : trimSpace raw = ""
  · rw [if_pos h1] at h; cases h
  rw [if_neg h1] at h
  cases hp : parseURL (if (splitSchemeSep (trimSpace raw).data).isSome then trimSpace raw
      else "http://" ++ trimSpace raw) with
  | none => rw [hp] at h; cases h
  | some u =>
    rw [hp] at h
    dsimp only at h
    obtain ⟨hsp, hhostStop, hhostSp, hpathStop, hpathSp, hpathHead⟩ := parseURL_some hp
    by_cases h2 : u.scheme ≠ "http" ∧ u.scheme ≠ "https"
    · rw [if_pos h2] at h; cases h
    rw [if_neg h2] at h
    by_cases h3 : u.host = ""
    · rw [if_pos h3] at h; cases h
    rw [if_neg h3] at h
    by_cases h4 : u.rawQuery ≠ "" ∨ u.fragment ≠ ""
    · rw [if_pos h4] at h; cases h
    rw [if_neg h4] at h
    injection h with h
    have hsch : u.scheme = "http" ∨ u.scheme = "https" := by
      rcases not_and_or.mp h2 with h0 | h0
      · exact Or.inl (not_not.mp h0)
      · exact Or.inr (not_not.mp h0)
    have hq : u.rawQuery = "" := not_not.mp (fun hh => h4 (Or.inl hh))
    have hf : u.fragment = "" := not_not.mp (fun hh => h4 (Or.inr hh))
    refine ⟨u, (if trimSuffixSlash u.path = "/" then "" else trimSuffixSlash u.path),
      hsch, h3, hhostStop, hhostSp, ?_, ?_, ?_, ?_⟩
    · by_cases hps : trimSuffixSlash u.path = "/"
      · rw [if_pos hps]; intro c hc; cases hc
      · rw [if_neg hps]
        intro c hc
        exact hpathStop c (trimSuffixSlash_mem hc)
    · by_cases hps : trimSuffixSlash u.path = "/"
      · rw [if_pos hps]; intro c hc; cases hc
      · rw [if_neg hps]
        intro c hc
        exact hpathSp c (trimSuffixSlash_mem hc)
    · by_cases hps : trimSuffixSlash u.path = "/"
      · rw [if_pos hps]; exact Or.inl rfl
      · rw [if_neg hps]
        exact trimSuffixSlash_head hpathHead
    · rw [← h]
      unfold URL.render
      dsimp only
      rw [hq, hf]
      rw [if_pos rfl, if_pos rfl]
      rw [String.append_empty, String.append_empty]
      rw [String.data_append, String.data_append, String.data_append]
      rw [show ("://" : String).data = [':', '/', '/'] from rfl]
      simp [List.append_assoc]

theorem normalizePeer_idem {raw out : String} (h : normalizePeer raw = .ok out)
    (hlast : out.data.getLast? ≠ some '/') :
    normalizePeer out = .ok out := by
  obtain ⟨u, p2, hsch, hhne, hhostStop, hhostSp, hpStop, hpSp, hpHead, hdata⟩ :=
    normalizePeer_ok_inv h
  have hschColon : ':' ∉ u.scheme.data := by
    rcases hsch with h0 | h0 <;> rw [h0] <;> decide
  have hschSp : ∀ c ∈ u.scheme.data, isSpaceGo c = false := by
    rcases hsch with h0 | h0 <;> rw [h0] <;> decide
  have houtSp : ∀ c ∈ out.data, isSpaceGo c = false := by
    rw [hdata]
    intro c hc
    simp only [List.mem_append, List.mem_cons] at hc
    rcases hc with hc | rfl | rfl | rfl | hc | hc
    · exact hschSp c hc
    · decide
    · decide
    · decide
    · exact hhostSp c hc
    · exact hpSp c hc
  have htrim : trimSpace out = out := trimSpace_eq_self houtSp
  have hOutNe : out ≠ "" := by
    intro hcon
    have hd : out.data = [] := by rw [hcon]
    rw [hdata] at hd
    simp at hd
  have hsplitOut : splitSchemeSep out.data
      = some (u.scheme.data, u.host.data ++ p2.data) := by
    rw [hdata]
    exact splitSchemeSep_boundary _ _ hschColon
  have hpOut : parseURL out = some ⟨u.scheme, u.host, p2, "", ""⟩ :=
    parseURL_parts out u.scheme u.host p2 hdata houtSp hschColon hhostStop hpStop hpHead
  have hdata2 : out.data
      = (u.scheme.data ++ ':' :: '/' :: '/' :: u.host.data) ++ p2.data := by
    rw [hdata]
    simp [List.cons_append, List.append_assoc]
  have hp2last : p2.data.getLast? ≠ some '/' := by
    intro hcon
    apply hlast
    have hne2 : p2.data ≠ [] := by
      intro h0
      rw [h0] at hcon
      cases hcon
    rw [hdata2, List.getLast?_append_of_ne_nil _ hne2]
    exact hcon
  have htss : trimSuffixSlash p2 = p2 := trimSuffixSlash_eq_self hp2last
  have hp2slash : p2 ≠ "/" := by
    intro h0
    rw [h0] at hp2last
    exact hp2last rfl
  have hschOK : ¬(u.scheme ≠ "http" ∧ u.scheme ≠ "https") := by
    rcases hsch with h0 | h0
    · exact fun hand => hand.1 h0
    · exact fun hand => hand.2 h0
  have hrender : URL.render ⟨u.scheme, u.host, p2, "", ""⟩ = out := by
    unfold URL.render
    dsimp only
    rw [if_pos rfl, if_pos rfl, String.append_empty, String.append_empty]
    rw [String.ext_iff]
    simp only [String.data_append]
    rw [hdata]
    simp [List.append_assoc]
  unfold normalizePeer
  dsimp only
  rw [htrim]
  rw [if_neg hOutNe]
  rw [if_pos (by rw [hsplitOut]; rfl)]
  rw [hpOut]
  dsimp only
  rw [if_neg hschOK, if_neg hhne, if_neg (by simp)]
  rw [htss, if_neg hp2slash]
  rw [hrender]

/-- C8 (amended): `normalizePeer` is idempotent on every accepted input
whose normalized form does not end in `/`: normalizing the output again
returns it unchanged.  (An output ending in a slash — produced from a
path ending in `//` — loses one more slash when normalized again, see
the counterexample.)  The three spellings `127.0.0.1:8787`,
`127.0.0.1:8787/` and `http://127.0.0.1:8787` all normalize to
`http://127.0.0.1:8787`, and adding all three through `AddPeer` leaves
exactly that one registry entry. -/
theorem C8_peer_normalization (raw out : String) :
    (normalizePeer raw = .ok out → out.data.getLast? ≠ some '/' →
      normalizePeer out = .ok out) ∧
    (normalizePeer "127.0.0.1:8787" = .ok "http://127.0.0.1:8787" ∧
     normalizePeer "127.0.0.1:8787/" = .ok "http://127.0.0.1:8787" ∧
     normalizePeer "http://127.0.0.1:8787" = .ok "http://127.0.0.1:8787") ∧
    (AddPeer (initStore 7) "127.0.0.1:8787"
        = .ok ("http://127.0.0.1:8787", c8s1) ∧
     AddPeer c8s1 "127.0.0.1:8787/" = .ok ("http://127.0.0.1:8787", c8s1) ∧
     AddPeer c8s1 "http://127.0.0.1:8787"
        = .ok ("http://127.0.0.1:8787", c8s1) ∧
     c8s1.peers = ["http://127.0.0.1:8787"]) := by
  refine ⟨fun h hl => normalizePeer_idem h hl, ⟨by decide, by decide, by decide⟩,
    ?_, by decide, by decide, rfl⟩
  unfold AddPeer
  rw [show normalizePeer "127.0.0.1:8787" = .ok "http://127.0.0.1:8787" from by decide]
  dsimp only
  rw [if_neg (by decide)]
  unfold sortStrings
  rw [show (initStore 7).peers ++ ["http://127.0.0.1:8787"]
      = ["http://127.0.0.1:8787"] from rfl]
  rw [List.mergeSort_singleton]
  rfl

/-- C8 counterexample: `normalizePeer` is not idempotent on every
accepted input: `http://h/a//` normalizes to `http://h/a/`, which
normalizes again to the different string `http://h/a`. -/
theorem C8_counterexample :
    normalizePeer "http://h/a//" = .ok "http://h/a/" ∧
    normalizePeer "http://h/a/" = .ok "http://h/a" ∧
    ("http://h/a/" : String) ≠ "http://h/a" :=
  ⟨by decide, by decide, by decide⟩

/-- C8 witness: the amended idempotence applied to the accepted input
`127.0.0.1:8787`, whose normalized form `http://127.0.0.1:8787` does not
end in a slash. -/
theorem C8_witness :
    normalizePeer "http://127.0.0.1:8787" = .ok "http://127.0.0.1:8787" :=
  (C8_peer_normalization "127.0.0.1:8787" "http://127.0.0.1:8787").1
    (by decide) (by decide)
